import Mathlib

/-!
Verification of the `meilisearch-cli` command-line client.

This file gives a shallow embedding of the parts of the repository that the
checked properties are about, and proves (or refutes) each property.

Python strings are embedded as `List Char` (wrapped back into Lean `String`
at the boundaries via `String.mk`).  The embedded functions keep the names of
the Python functions they are translated from:

* `meilisearch_cli/_docs.py`  : `format_section`, `split_link`,
  `build_branches`, `build_tree` (the documentation sitemap tree builder);
* `meilisearch_cli/_helpers.py` : `create_client`, `check_index_status`,
  `process_request`, `create_panel`, `set_search_param`,
  `validate_file_type_and_set_content_type`;
* `meilisearch_cli/documents.py` : `add_from_file`;
* `meilisearch_cli/main.py` : the `search` command's parameter assembly.

Side effects (console printing, HTTP calls, `sys.exit`, raising) are embedded
as explicit effect traces plus a termination value.
-/

/-! ### ASCII case mapping (CPython semantics of `str.title`)

CPython's `str.title` walks the string keeping a flag `previous_is_cased`;
a cased character is titlecased (for ASCII: uppercased) when the previous
character was not cased and lowercased otherwise; uncased characters are
copied unchanged.  The inputs of this repository are URL path segments, so
the ASCII fragment of the Unicode tables is what matters; `pyUpper`/`pyLower`
below are exactly the ASCII case maps (and coincide with Lean's
`Char.toUpper`/`Char.toLower`). -/

/-- ASCII uppercase map: `a`..`z` are shifted down by 32, all else unchanged. -/
def pyUpper (c : Char) : Char :=
  if 97 ≤ c.toNat ∧ c.toNat ≤ 122 then Char.ofNat (c.toNat - 32) else c

/-- ASCII lowercase map: `A`..`Z` are shifted up by 32, all else unchanged. -/
def pyLower (c : Char) : Char :=
  if 65 ≤ c.toNat ∧ c.toNat ≤ 90 then Char.ofNat (c.toNat + 32) else c

/-- ASCII test for a cased character (`A`..`Z` or `a`..`z`). -/
def pyCased (c : Char) : Bool :=
  (97 ≤ c.toNat && c.toNat ≤ 122) || (65 ≤ c.toNat && c.toNat ≤ 90)

/-- Worker of `str.title`: the `Bool` argument is CPython's
`previous_is_cased` flag. -/
def titleAux : Bool → List Char → List Char
  | _, [] => []
  | prev, c :: cs =>
    (if prev then pyLower c else pyUpper c) :: titleAux (pyCased c) cs

/-- Python `str.title` on a character list. -/
def pyTitle (l : List Char) : List Char := titleAux false l

/-- Python `str.split(sep)` for a one-character separator (always returns a
non-empty list of pieces, like Python). -/
def splitOnChar (sep : Char) : List Char → List (List Char)
  | [] => [[]]
  | c :: cs =>
    match splitOnChar sep cs with
    | [] => [[]]
    | w :: ws => if c = sep then [] :: w :: ws else (c :: w) :: ws

/-- Python `sep.join(pieces)` for a one-character separator. -/
def joinWith (sep : Char) : List (List Char) → List Char
  | [] => []
  | [w] => w
  | w :: ws => w ++ sep :: joinWith sep ws

/-- Substitute one character for another, pointwise. -/
def subst (a b : Char) (c : Char) : Char := if c = a then b else c

/-- Python `str.replace(pat, rep)` (leftmost, non-overlapping), with explicit
fuel; it is always called with `fuel = length of the subject`, which is
enough: each step either consumes `pat` (non-empty in every use below) or one
character. -/
def replaceAux (pat rep : List Char) : Nat → List Char → List Char
  | _, [] => []
  | 0, l => l
  | fuel + 1, c :: cs =>
    if pat ≠ [] ∧ pat.isPrefixOf (c :: cs) then
      rep ++ replaceAux pat rep fuel ((c :: cs).drop pat.length)
    else
      c :: replaceAux pat rep fuel cs

/-- Python `needle in hay` for strings (contiguous substring test). -/
def isSubstring (needle : List Char) : List Char → Bool
  | [] => needle.isPrefixOf []
  | c :: cs => needle.isPrefixOf (c :: cs) || isSubstring needle cs

/-- String-level wrapper for `isSubstring`. -/
def strContains (hay needle : String) : Bool := isSubstring needle.data hay.data

/-! ### `meilisearch_cli/_docs.py` : the documentation tree builder

`rich.tree.Tree` is embedded as a rose tree.  In the source every node label
is the literal string `"[link={link}]{branch}[/link]"`, built either by
`Tree(label=f"[link={link}]{formatted_item}[/link]")` in `build_tree` or by
`node.add(f"[link={link}]{branch}[/link]")` in `build_branches`.  The
embedding stores the two components `link` and `branch` the label was built
from; the label itself is recovered by `RTree.label`.  The helper
`get_branch_name` reads the label back with the regex
`(?<=\]).*(?=\[/link\])`, which is embedded faithfully below: the match
starts at the *first* position preceded by a `]` that admits a match at all,
`.*` greedily spans newline-free text, and the lookahead settles on the
*last* `[/link]` occurrence the span can reach.  When the link contains `]`
the extraction therefore starts inside the link and differs from the stored
`branch`; when the label admits no match at all (only possible when it
contains a newline, which no sitemap URL does) the source raises an
`IndexError` from `findall(...)[0]` — the embedding then returns the empty
string, a divergence documented at `get_branch_name_core`. -/

/-- A `rich.tree.Tree` node as built by `_docs.py`: its label is rendered as
`"[link={link}]{name}[/link]"`. -/
inductive RTree where
  | node (link : String) (name : String) (children : List RTree)

/-- The `{link}` component of a node's label. -/
def RTree.link : RTree → String
  | .node l _ _ => l

/-- The `{branch}` component a node's label was built from — the text the
label displays as hyperlink text.  This is *not* `get_branch_name`, which
re-extracts from the rendered label (below) and can differ when the link
contains `]`. -/
def RTree.name : RTree → String
  | .node _ n _ => n

/-- The ordered list of child nodes. -/
def RTree.children : RTree → List RTree
  | .node _ _ cs => cs

/-- The f-string `f"[link={link}]{branch}[/link]"` both constructors of the
source use. -/
def mkLabel (link branch : String) : String :=
  "[link=" ++ link ++ "]" ++ branch ++ "[/link]"

/-- The rendered label of a node (`node.label.__str__()`). -/
def RTree.label : RTree → String
  | .node l b _ => mkLabel l b

/-- The literal `[/link]` the regex lookahead searches for. -/
def flink : List Char := "[/link]".data

/-- Does `[/link]` occur at position `q` of `s`? -/
def occursAt (s : List Char) (q : Nat) : Bool := flink.isPrefixOf (s.drop q)

/-- Length of the maximal newline-free run of `s` starting at position `p`
(`.` does not match a newline). -/
def noNlRun (s : List Char) (p : Nat) : Nat :=
  ((s.drop p).takeWhile (fun c => c ≠ '\n')).length

/-- Largest offset `j ≤ i` such that `[/link]` occurs at `p + j`: the greedy
`.*` backtracks from the far end of the newline-free run. -/
def lastOcc (s : List Char) (p : Nat) : Nat → Option Nat
  | 0 => if occursAt s p then some p else none
  | i + 1 => if occursAt s (p + i + 1) then some (p + i + 1) else lastOcc s p i

/-- End position of the regex match starting at `p`, when one exists. -/
def matchEnd (s : List Char) (p : Nat) : Option Nat := lastOcc s p (noNlRun s p)

/-- Can a match of `(?<=\]).*(?=\[/link\])` start at position `p`?  The
lookbehind needs the previous character to be `]`, and some reachable
`[/link]` occurrence must exist. -/
def posCond (s : List Char) (p : Nat) : Bool :=
  decide (1 ≤ p) && (s.get? (p - 1) == some ']') && (matchEnd s p).isSome

/-- First match position at or after `p` (`re.findall` scans left to
right); the fuel is the number of remaining candidate positions. -/
def firstPosAux (s : List Char) : Nat → Nat → Option Nat
  | _, 0 => none
  | p, fuel + 1 => if posCond s p then some p else firstPosAux s (p + 1) fuel

/-- `re.findall(r"(?<=\]).*(?=\[/link\])", s)[0]`.  When the regex has no
match the source raises `IndexError`; that is only possible when `s`
contains a newline (for newline-free labels the position after the `]`
closing `[link=...]` always matches), which no sitemap URL produces — the
embedding returns `[]` there. -/
def get_branch_name_core (s : List Char) : List Char :=
  match firstPosAux s 1 s.length with
  | some p =>
    match matchEnd s p with
    | some q => (s.drop p).take (q - p)
    | none => []
  | none => []

/-- The `get_branch_name` helper of `build_branches` (lines 20-21 of
`_docs.py`): regex extraction from the rendered label. -/
def get_branch_name (t : RTree) : String :=
  String.mk (get_branch_name_core t.label.data)

/-- The list `branches` computed at line 32 of `_docs.py` (the
`if node.children` guard there filters on a constant, so it is exactly
`get_branch_name` of all children). -/
def childBranchNames (t : RTree) : List String := t.children.map get_branch_name

mutual
/-- Number of nodes of a tree. -/
def RTree.size : RTree → Nat
  | .node _ _ cs => 1 + sizeList cs

/-- Number of nodes of a forest. -/
def sizeList : List RTree → Nat
  | [] => 0
  | t :: ts => RTree.size t + sizeList ts
end

/-- The displayed branch labels of a node's children (the stored `{branch}`
components). -/
def childNames (t : RTree) : List String := t.children.map RTree.name

/-- Look a node up by its path of child indices from the root. -/
def nodeAt : RTree → List Nat → Option RTree
  | t, [] => some t
  | t, j :: p =>
    match t.children.get? j with
    | some c => nodeAt c p
    | none => none

/-- Replace the `n`-th entry of a list by `f` of it (other entries and the
length unchanged). -/
def modifyNth (f : α → α) : Nat → List α → List α
  | _, [] => []
  | 0, x :: xs => f x :: xs
  | n + 1, x :: xs => x :: modifyNth f n xs

/-- The mutation `node.add(f"[link={link}]{branch}[/link]")` performed at the
node addressed by the given path: a new childless node is appended at the end
of that node's child list. -/
def appendChildAt (branch link : String) : RTree → List Nat → RTree
  | .node l n cs, [] => .node l n (cs ++ [.node link branch []])
  | .node l n cs, j :: p =>
    .node l n (modifyNth (fun c => appendChildAt branch link c p) j cs)

/-- Push the children of the node at path `p` onto the walk stack.  Python
keeps the stack in a list with the top at the end and appends the children in
order (the `if child:` guard is always true of a `Tree` object); here the top
of the stack is the head, so the children appear reversed, last child first.
The second argument is the index of the first child of the forest inside its
parent. -/
def childStack (p : List Nat) : Nat → List RTree → List (List Nat × RTree)
  | _, [] => []
  | j, c :: cs => childStack p (j + 1) cs ++ [(p ++ [j], c)]

/-- Total node count of the trees on the walk stack. -/
def wsSize : List (List Nat × RTree) → Nat
  | [] => 0
  | (_, t) :: rest => t.size + wsSize rest

/-- The `while nodes:` loop of `build_branches` (lines 23-39 of `_docs.py`).
The loop only reads the tree until it either returns it unchanged (`none`)
or performs a single `node.add` and returns (`some path`), so it is embedded
as a read-only walk producing the decision.  `i` counts loop iterations, as
in the source (it is *not* the depth of the popped node).  The fuel is spent
one unit per iteration; since popping a node of size `s` pushes forests of
total size `s - 1`, the stack's total size decreases every iteration, and the
initial fuel `RTree.size tree` can never run out (`bbLoop_fuel_irrelevant`
below). -/
def bbLoop (branch : String) (depth : Nat) :
    Nat → Nat → List (List Nat × RTree) → Option (List Nat)
  | _, _, [] => none
  | 0, _, _ :: _ => none
  | fuel + 1, i, (p, t) :: rest =>
    if get_branch_name t = branch then none
    else if i < depth ∧ depth = i + 1 ∧ branch ∉ childBranchNames t then some p
    else if i < depth then bbLoop branch depth fuel (i + 1) (childStack p 0 t.children ++ rest)
    else bbLoop branch depth fuel (i + 1) rest

/-- `build_branches` of `_docs.py` (lines 19-41): walk the tree with an
explicit stack; return it unchanged when the popped node already carries
`branch`, append `branch` under the popped node when the iteration count
says the target depth is one below, otherwise keep walking (pushing the
popped node's children while `i < depth`); falling off the loop returns the
tree unchanged. -/
def build_branches (tree : RTree) (branch link : String) (depth : Nat) : RTree :=
  match bbLoop branch depth tree.size 0 [([], tree)] with
  | none => tree
  | some p => appendChildAt branch link tree p

/-- `format_section` of `_docs.py` (lines 60-69) on a character list (the
source calls the argument `section`, a Lean keyword, hence `sect`). -/
def format_section_core (sect : List Char) : List Char :=
  if '_' ∉ sect ∧ '.' ∉ sect ∧ '-' ∉ sect then pyTitle sect
  else
    let f1 := if '_' ∈ sect then pyTitle (joinWith ' ' (splitOnChar '_' sect))
              else pyTitle sect
    let f2 := if '-' ∈ f1 then pyTitle (joinWith ' ' (splitOnChar '-' f1)) else f1
    if '.' ∈ f2 then (splitOnChar '.' f2).headD [] else f2

/-- `format_section` of `_docs.py`: make one path segment human readable. -/
def format_section (s : String) : String := String.mk (format_section_core s.data)

/-- The host prefix replaced by `split_link`. -/
def docsHost : List Char := "https://docs.meilisearch.com".data

/-- The replacement text used by `split_link`. -/
def docsRoot : List Char := "MeiliSearch Documentation".data

/-- `split_link` of `_docs.py` (lines 81-85): replace the docs host by the
root title, split on `/`, and drop a trailing empty piece. -/
def split_link (link : String) : List String :=
  let split := (splitOnChar '/' (replaceAux docsHost docsRoot link.length link.data)).map
    String.mk
  if split.getLast? = some "" then split.dropLast else split

/-- The body of the `for link in links:` loop of `build_tree` (lines 46-53
of `_docs.py`), iterating `enumerate(split)`: the accumulator is the tree
built so far (`None` before the first node). -/
def buildTreeItems (link : String) : Option RTree → Nat → List String → Option RTree
  | tree, _, [] => tree
  | tree, i, item :: rest =>
    let formatted := format_section item
    let tree' :=
      match tree with
      | some t => some (build_branches t formatted link i)
      | none => if i = 0 then some (RTree.node link formatted []) else none
    buildTreeItems link tree' (i + 1) rest

/-- `build_tree` of `_docs.py` (lines 44-57).  `none` is the
`raise TreeBuildError("Error building tree")` outcome. -/
def build_tree (links : List String) : Option RTree :=
  links.foldl (fun tree link => buildTreeItems link tree 0 (split_link link)) none

/-- Pairwise distinctness of a list of names (Boolean `List.Nodup`). -/
def distinctNames : List String → Bool
  | [] => true
  | x :: xs => !(decide (x ∈ xs)) && distinctNames xs

mutual
/-- Every node of the tree has children with pairwise distinct branch names. -/
def allNodup : RTree → Bool
  | .node _ _ cs => distinctNames (cs.map RTree.name) && allNodupList cs

/-- `allNodup` on every tree of a forest. -/
def allNodupList : List RTree → Bool
  | [] => true
  | t :: ts => allNodup t && allNodupList ts
end

mutual
/-- Cleanliness of an embedded tree: every node's link is free of `]` and
its stored branch text free of newlines.  On such trees `get_branch_name`
recovers exactly the stored branch text
(`get_branch_name_of_extractOk` below). -/
def extractOk : RTree → Bool
  | .node l b cs => decide ((']' : Char) ∉ l.data)
      && decide (('\n' : Char) ∉ b.data) && extractOkList cs

/-- `extractOk` on every tree of a forest. -/
def extractOkList : List RTree → Bool
  | [] => true
  | t :: ts => extractOk t && extractOkList ts
end

/-! ### Lemmas about `split_link` and `build_tree` (claim C1) -/

theorem string_mk_eq_empty_iff (d : List Char) : String.mk d = "" ↔ d = [] := by
  constructor
  · intro h
    have := congrArg String.data h
    simpa using this
  · intro h
    rw [h]

theorem replaceAux_ne_nil (pat rep : List Char) (hrep : rep ≠ []) (fuel : Nat)
    (l : List Char) (hl : l ≠ []) : replaceAux pat rep fuel l ≠ [] := by
  cases l with
  | nil => exact absurd rfl hl
  | cons c cs =>
    cases fuel with
    | zero => simp [replaceAux]
    | succ fuel =>
      rw [replaceAux]
      split
      · simp [hrep]
      · simp

theorem splitOnChar_cons' (sep c : Char) (cs w : List Char) (ws : List (List Char))
    (h : splitOnChar sep cs = w :: ws) :
    splitOnChar sep (c :: cs) = if c = sep then [] :: w :: ws else (c :: w) :: ws := by
  rw [splitOnChar, h]

theorem splitOnChar_ne_nil (sep : Char) (l : List Char) : splitOnChar sep l ≠ [] := by
  cases l with
  | nil => simp [splitOnChar]
  | cons c cs =>
    rcases h : splitOnChar sep cs with _ | ⟨w, ws⟩
    · exact absurd h (splitOnChar_ne_nil sep cs)
    · rw [splitOnChar_cons' sep c cs w ws h]
      split <;> simp

theorem splitOnChar_of_ne_nil (sep : Char) (l : List Char) (hl : l ≠ []) :
    2 ≤ (splitOnChar sep l).length ∨ splitOnChar sep l = [l] := by
  induction l with
  | nil => exact absurd rfl hl
  | cons c cs ih =>
    rcases h : splitOnChar sep cs with _ | ⟨w, ws⟩
    · exact absurd h (splitOnChar_ne_nil sep cs)
    · rw [splitOnChar_cons' sep c cs w ws h]
      by_cases hc : c = sep
      · left; simp [hc]
      · rw [if_neg hc]
        rcases ws with _ | ⟨w', ws'⟩
        · rcases cs with _ | ⟨d, ds⟩
          · right
            simp [splitOnChar] at h
            simp [h]
          · rcases ih (by simp) with h2 | h2
            · rw [h] at h2; simp at h2
            · rw [h] at h2
              simp at h2
              simp [h2]
        · left; simp

theorem split_link_empty : split_link "" = [] := rfl

theorem split_link_ne_nil (link : String) (h : link ≠ "") : split_link link ≠ [] := by
  have hdata : link.data ≠ [] := by
    intro hd
    apply h
    cases link with
    | mk d => exact (string_mk_eq_empty_iff d).mpr hd
  have hrep : replaceAux docsHost docsRoot link.length link.data ≠ [] :=
    replaceAux_ne_nil _ _ (by simp [docsRoot]) _ _ hdata
  simp only [split_link]
  rcases splitOnChar_of_ne_nil '/' _ hrep with h2 | h2
  · split
    · intro hc
      have h3 := List.length_dropLast ((splitOnChar '/' (replaceAux docsHost docsRoot
        link.length link.data)).map String.mk)
      rw [hc] at h3
      simp at h3
      omega
    · intro hc
      rw [List.map_eq_nil_iff] at hc
      exact splitOnChar_ne_nil _ _ hc
  · rw [h2]
    have hne : String.mk (replaceAux docsHost docsRoot link.length link.data) ≠ "" := by
      intro hs
      exact hrep ((string_mk_eq_empty_iff _).mp hs)
    simp [List.getLast?, hne]

theorem buildTreeItems_isSome (link : String) (items : List String) :
    ∀ (tree : Option RTree) (i : Nat), tree.isSome →
      (buildTreeItems link tree i items).isSome := by
  induction items with
  | nil => intro tree i h; simpa [buildTreeItems] using h
  | cons item rest ih =>
    intro tree i h
    rcases tree with _ | t
    · simp at h
    · rw [buildTreeItems]
      exact ih _ _ (by simp)

theorem buildTreeItems_none (link : String) (items : List String) (tree : Option RTree)
    (i : Nat) (h : buildTreeItems link tree i items = none) : tree = none := by
  rcases htree : tree with _ | t
  · rfl
  · have h2 := buildTreeItems_isSome link items tree i (by simp [htree])
    rw [h] at h2
    simp at h2

theorem buildTreeItems_cons_none (link item : String) (rest : List String) :
    buildTreeItems link none 0 (item :: rest)
      = buildTreeItems link (some (RTree.node link (format_section item) [])) 1 rest := rfl

/-- C1 (corrected): `build_tree` fails (raises `TreeBuildError`, here `none`)
exactly when every link in the list is the empty string; equivalently, for
every list containing at least one non-empty link it returns a tree and never
raises.  (The original claim, failure iff the list is empty, is refuted by
`C1_counterexample`.) -/
theorem C1_build_tree_error_iff_all_links_empty (links : List String) :
    build_tree links = none ↔ ∀ l ∈ links, l = "" := by
  unfold build_tree
  suffices h : ∀ (acc : Option RTree),
      (links.foldl (fun tree link => buildTreeItems link tree 0 (split_link link)) acc = none ↔
        acc = none ∧ ∀ l ∈ links, l = "") by
    rw [h none]
    simp
  induction links with
  | nil => intro acc; simp
  | cons link rest ih =>
    intro acc
    rw [List.foldl_cons, ih]
    constructor
    · rintro ⟨h1, h2⟩
      have hacc : acc = none := buildTreeItems_none link _ acc 0 h1
      subst hacc
      by_cases hne : link = ""
      · subst hne
        refine ⟨rfl, fun l hl => ?_⟩
        rcases List.mem_cons.mp hl with h3 | h3
        · exact h3
        · exact h2 l h3
      · exfalso
        rcases hsplit : split_link link with _ | ⟨item, restItems⟩
        · exact split_link_ne_nil link hne hsplit
        · rw [hsplit, buildTreeItems_cons_none] at h1
          have h4 := buildTreeItems_isSome link restItems
            (some (RTree.node link (format_section item) [])) 1 (by simp)
          rw [h1] at h4
          simp at h4
    · rintro ⟨h1, h2⟩
      subst h1
      have hlink : link = "" := h2 link (by simp)
      rw [hlink, split_link_empty]
      exact ⟨rfl, fun l hl => h2 l (List.mem_cons_of_mem _ hl)⟩

/-- C1 counterexample: `[""]` is a non-empty list of links on which
`build_tree` still raises `TreeBuildError` (no split segment survives, so no
root is ever created), refuting "raises if and only if the list is empty". -/
theorem C1_counterexample : build_tree [""] = none ∧ ([""] : List String) ≠ [] :=
  ⟨rfl, by simp⟩

/-! ### Lemmas about `build_branches` (claim C2) -/

theorem nodeAt_append (t : RTree) (p : List Nat) (j : Nat) :
    nodeAt t (p ++ [j]) =
      match nodeAt t p with
      | some n => n.children.get? j
      | none => none := by
  induction p generalizing t with
  | nil =>
    simp only [List.nil_append, nodeAt]
    rcases h : t.children.get? j with _ | c <;> simp [nodeAt, h]
  | cons k p ih =>
    rcases t with ⟨l, n, cs⟩
    simp only [List.cons_append, nodeAt]
    rcases hk : (RTree.node l n cs).children.get? k with _ | c
    · rfl
    · exact ih c

theorem mem_childStack (p : List Nat) (cs : List RTree) :
    ∀ (j : Nat) (x : List Nat × RTree), x ∈ childStack p j cs →
      ∃ k, x.1 = p ++ [j + k] ∧ cs.get? k = some x.2 := by
  induction cs with
  | nil => intro j x hx; simp [childStack] at hx
  | cons c cs ih =>
    intro j x hx
    rw [childStack, List.mem_append] at hx
    rcases hx with hx | hx
    · obtain ⟨k, hk1, hk2⟩ := ih (j + 1) x hx
      exact ⟨k + 1, by rw [hk1]; ring_nf, by simpa using hk2⟩
    · simp at hx
      exact ⟨0, by simp [hx], by simp [hx]⟩

theorem bbLoop_some_spec (branch : String) (depth : Nat) (root : RTree) :
    ∀ (fuel i : Nat) (ws : List (List Nat × RTree)) (p : List Nat),
      bbLoop branch depth fuel i ws = some p →
      (∀ x ∈ ws, nodeAt root x.1 = some x.2) →
      ∃ n, nodeAt root p = some n ∧ branch ∉ childBranchNames n := by
  intro fuel
  induction fuel with
  | zero =>
    intro i ws p h hinv
    rcases ws with _ | ⟨x, rest⟩ <;> simp [bbLoop] at h
  | succ fuel ih =>
    intro i ws p h hinv
    rcases ws with _ | ⟨⟨q, t⟩, rest⟩
    · simp [bbLoop] at h
    · rw [bbLoop] at h
      split at h
      · exact absurd h (by simp)
      · split at h
        · next hcond =>
          obtain ⟨_, _, hnotmem⟩ := hcond
          obtain rfl : q = p := Option.some.inj h
          exact ⟨t, hinv (q, t) (by simp), hnotmem⟩
        · split at h
          · apply ih (i + 1) _ p h
            intro x hx
            rw [List.mem_append] at hx
            rcases hx with hx | hx
            · obtain ⟨k, hk1, hk2⟩ := mem_childStack q t.children 0 x hx
              rw [hk1, nodeAt_append, hinv (q, t) (by simp)]
              simpa using hk2
            · exact hinv x (by simp [hx])
          · apply ih (i + 1) rest p h
            intro x hx
            exact hinv x (by simp [hx])

theorem name_appendChildAt (branch link : String) (t : RTree) (p : List Nat) :
    (appendChildAt branch link t p).name = t.name := by
  rcases t with ⟨l, n, cs⟩
  rcases p with _ | ⟨j, p⟩ <;> simp [appendChildAt, RTree.name]

theorem map_modifyNth (f : α → α) (g : α → β) (hfg : ∀ x, g (f x) = g x) :
    ∀ (j : Nat) (xs : List α), (modifyNth f j xs).map g = xs.map g := by
  intro j xs
  induction xs generalizing j with
  | nil => simp [modifyNth]
  | cons x xs ih =>
    rcases j with _ | j
    · simp [modifyNth, hfg]
    · simp [modifyNth, ih]

theorem mem_modifyNth (f : α → α) :
    ∀ (j : Nat) (xs : List α) (x : α), x ∈ modifyNth f j xs →
      x ∈ xs ∨ ∃ y, xs.get? j = some y ∧ x = f y := by
  intro j xs
  induction xs generalizing j with
  | nil => intro x hx; simp [modifyNth] at hx
  | cons z zs ih =>
    intro x hx
    rcases j with _ | j
    · rw [modifyNth] at hx
      rcases List.mem_cons.mp hx with h | h
      · exact Or.inr ⟨z, rfl, h⟩
      · exact Or.inl (List.mem_cons_of_mem _ h)
    · rw [modifyNth] at hx
      rcases List.mem_cons.mp hx with h | h
      · exact Or.inl (by simp [h])
      · rcases ih j x h with h2 | ⟨y, hy1, hy2⟩
        · exact Or.inl (List.mem_cons_of_mem _ h2)
        · exact Or.inr ⟨y, by simpa using hy1, hy2⟩

theorem distinctNames_iff (l : List String) : distinctNames l = true ↔ l.Nodup := by
  induction l with
  | nil => simp [distinctNames]
  | cons x xs ih => simp [distinctNames, ih, List.nodup_cons]

theorem allNodupList_iff (cs : List RTree) :
    allNodupList cs = true ↔ ∀ t ∈ cs, allNodup t = true := by
  induction cs with
  | nil => simp [allNodupList]
  | cons c cs ih => simp [allNodupList, ih]

theorem allNodup_node (l n : String) (cs : List RTree) :
    allNodup (RTree.node l n cs)
      = (distinctNames (cs.map RTree.name) && allNodupList cs) := by
  rw [allNodup]

theorem appendChildAt_allNodup (branch link : String) :
    ∀ (p : List Nat) (t : RTree) (n : RTree), nodeAt t p = some n →
      branch ∉ childNames n → allNodup t = true →
      allNodup (appendChildAt branch link t p) = true := by
  intro p
  induction p with
  | nil =>
    intro t n hat hmem hnodup
    rcases t with ⟨l, nm, cs⟩
    have hn : n = RTree.node l nm cs := by simpa [nodeAt] using hat.symm
    subst hn
    rw [appendChildAt, allNodup_node]
    rw [allNodup_node] at hnodup
    simp only [Bool.and_eq_true] at hnodup
    obtain ⟨hd, hl⟩ := hnodup
    rw [Bool.and_eq_true]
    constructor
    · rw [distinctNames_iff]
      rw [distinctNames_iff] at hd
      rw [List.map_append, List.map_singleton]
      simp only [RTree.name]
      rw [List.nodup_append]
      refine ⟨hd, List.nodup_singleton _, ?_⟩
      intro a ha hb
      simp at hb
      subst hb
      exact absurd (by simpa [childNames, RTree.children] using ha) hmem
    · rw [allNodupList_iff]
      intro t ht
      rcases List.mem_append.mp ht with h | h
      · exact (allNodupList_iff cs).mp hl t h
      · simp at h
        subst h
        rfl
  | cons j p ih =>
    intro t n hat hmem hnodup
    rcases t with ⟨l, nm, cs⟩
    rw [nodeAt] at hat
    rcases hc : (RTree.node l nm cs).children.get? j with _ | c
    · rw [hc] at hat; exact absurd hat (by simp)
    · rw [hc] at hat
      rw [appendChildAt, allNodup_node]
      rw [allNodup_node] at hnodup
      simp only [Bool.and_eq_true] at hnodup
      obtain ⟨hd, hl⟩ := hnodup
      rw [Bool.and_eq_true]
      constructor
      · rw [map_modifyNth _ _ (fun x => name_appendChildAt branch link x p)]
        exact hd
      · rw [allNodupList_iff]
        intro x hx
        rcases mem_modifyNth _ j cs x hx with h | ⟨y, hy1, hy2⟩
        · exact (allNodupList_iff cs).mp hl x h
        · simp only [RTree.children] at hc
          rw [hc] at hy1
          obtain rfl : c = y := Option.some.inj hy1
          subst hy2
          apply ih c n hat hmem
          apply (allNodupList_iff cs).mp hl
          exact List.get?_mem hc

/-! #### Regex extraction on constructed labels

`get_branch_name` applied to a node built from a `]`-free link and a
newline-free branch text returns that branch text: the first position the
regex can match from is the one right after the `]` closing `[link=...]`,
and the greedy `.*` with the `[/link]` lookahead ends the match at the
final `[/link]`. -/

theorem isPrefixOf_length_le :
    ∀ (a b : List Char), a.isPrefixOf b = true → a.length ≤ b.length := by
  intro a
  induction a with
  | nil => intro b _; simp
  | cons x xs ih =>
    intro b h
    rcases b with _ | ⟨y, ys⟩
    · simp [List.isPrefixOf] at h
    · rw [List.isPrefixOf, Bool.and_eq_true] at h
      have := ih ys h.2
      simp
      omega

theorem firstPosAux_spec (s : List Char) (P : Nat) (hP : posCond s P = true) :
    ∀ (fuel p : Nat), p ≤ P → P < p + fuel →
      (∀ q, p ≤ q → q < P → posCond s q = false) →
      firstPosAux s p fuel = some P := by
  intro fuel
  induction fuel with
  | zero => intro p h1 h2 _; omega
  | succ fuel ih =>
    intro p h1 h2 hbelow
    rw [firstPosAux]
    by_cases hc : posCond s p = true
    · have hp : p = P := by
        rcases Nat.lt_or_ge p P with h | h
        · exact absurd hc (by simp [hbelow p le_rfl h])
        · omega
      rw [if_pos hc, hp]
    · rw [if_neg (by simpa using hc)]
      have hne : p ≠ P := fun h => hc (h ▸ hP)
      exact ih (p + 1) (by omega) (by omega) (fun q hq1 hq2 => hbelow q (by omega) hq2)

theorem lastOcc_spec (s : List Char) (p j : Nat) :
    ∀ (i : Nat), j ≤ i → occursAt s (p + j) = true →
      (∀ k, j < k → k ≤ i → occursAt s (p + k) = false) →
      lastOcc s p i = some (p + j) := by
  intro i
  induction i with
  | zero =>
    intro hj hocc _
    obtain rfl : j = 0 := by omega
    rw [lastOcc, if_pos (by simpa using hocc)]
    simp
  | succ i ih =>
    intro hj hocc habove
    rw [lastOcc]
    by_cases hji : j = i + 1
    · subst hji
      rw [if_pos (by simpa using hocc)]
      rfl
    · have hj' : j ≤ i := by omega
      rw [if_neg (by simpa using habove (i + 1) (by omega) le_rfl)]
      exact ih hj' hocc (fun k hk1 hk2 => habove k hk1 (by omega))

theorem get_branch_name_core_mkLabel (link branch : String)
    (hlink : (']' : Char) ∉ link.data) (hbr : ('\n' : Char) ∉ branch.data) :
    get_branch_name_core (mkLabel link branch).data = branch.data := by
  have hdata : (mkLabel link branch).data
      = ("[link=".data ++ link.data) ++ ']' :: (branch.data ++ flink) := by
    simp [mkLabel, String.data_append, flink]
  set pre : List Char := "[link=".data ++ link.data with hpre
  set s : List Char := pre ++ ']' :: (branch.data ++ flink) with hs
  set P : Nat := pre.length + 1 with hP
  have pre_no_rb : (']' : Char) ∉ pre := by
    intro h
    rcases List.mem_append.mp h with h | h
    · exact absurd h (by decide)
    · exact hlink h
  have hsplit : s = (pre ++ [']']) ++ (branch.data ++ flink) := by
    rw [hs]; simp
  have hdropP : s.drop P = branch.data ++ flink := by
    have hlen : (pre ++ [']']).length = P := by simp [hP]
    rw [hsplit, ← hlen, List.drop_left]
  have hdrops : ∀ k, s.drop (P + k) = (branch.data ++ flink).drop k := by
    intro k
    rw [← List.drop_drop, hdropP]
  have hnl : noNlRun s P = branch.data.length + 7 := by
    rw [noNlRun, hdropP, List.takeWhile_eq_self_iff.mpr ?_]
    · simp [flink]
    · intro c hc
      simp only [ne_eq, decide_eq_true_eq]
      intro he
      rcases List.mem_append.mp hc with h | h
      · exact hbr (he ▸ h)
      · exact absurd (he ▸ h) (by decide)
  have hocc0 : occursAt s (P + branch.data.length) = true := by
    rw [occursAt, hdrops, List.drop_left]
    decide
  have habove : ∀ k, branch.data.length < k → k ≤ branch.data.length + 7 →
      occursAt s (P + k) = false := by
    intro k hk1 hk2
    have : ¬ occursAt s (P + k) = true := by
      intro h
      rw [occursAt, hdrops, List.drop_append_eq_append_drop,
        List.drop_eq_nil_of_le (by omega), List.nil_append] at h
      have hle := isPrefixOf_length_le _ _ h
      rw [List.length_drop] at hle
      have h7 : flink.length = 7 := by decide
      omega
    simpa using this
  have hmatch : matchEnd s P = some (P + branch.data.length) := by
    rw [matchEnd, hnl]
    exact lastOcc_spec s P branch.data.length (branch.data.length + 7) (by omega) hocc0 habove
  have hget : s.get? (P - 1) = some ']' := by
    have : P - 1 = pre.length := by omega
    rw [this, hs, List.get?_append_right le_rfl]
    simp
  have hposP : posCond s P = true := by
    rw [posCond, hget, hmatch]
    simp [hP]
  have hbelow : ∀ q, 1 ≤ q → q < P → posCond s q = false := by
    intro q hq1 hq2
    have hqlt : q - 1 < pre.length := by omega
    have hgetq : s.get? (q - 1) = pre.get? (q - 1) := by
      rw [hs]
      exact List.get?_append hqlt
    have hne : s.get? (q - 1) ≠ some ']' := by
      rw [hgetq]
      intro h
      exact pre_no_rb (List.get?_mem h)
    rw [posCond, beq_eq_false_iff_ne.mpr hne]
    simp
  have hslen : s.length = pre.length + 1 + (branch.data.length + 7) := by
    rw [hs]
    simp [flink]
    omega
  have hfirst : firstPosAux s 1 s.length = some P := by
    exact firstPosAux_spec s P hposP s.length 1 (by omega) (by omega)
      (fun q hq1 hq2 => hbelow q hq1 hq2)
  rw [hdata]
  simp only [get_branch_name_core, hfirst, hmatch]
  simp only [Nat.add_sub_cancel_left]
  rw [hdropP, List.take_left]

theorem string_mk_data (s : String) : String.mk s.data = s := rfl

theorem get_branch_name_node (link branch : String) (cs : List RTree)
    (hlink : (']' : Char) ∉ link.data) (hbr : ('\n' : Char) ∉ branch.data) :
    get_branch_name (RTree.node link branch cs) = branch := by
  show String.mk (get_branch_name_core (mkLabel link branch).data) = branch
  rw [get_branch_name_core_mkLabel link branch hlink hbr, string_mk_data]

theorem extractOkList_iff (cs : List RTree) :
    extractOkList cs = true ↔ ∀ t ∈ cs, extractOk t = true := by
  induction cs with
  | nil => simp [extractOkList]
  | cons c cs ih => simp [extractOkList, ih]

theorem extractOk_node_iff (l b : String) (cs : List RTree) :
    extractOk (RTree.node l b cs) = true ↔
      (']' : Char) ∉ l.data ∧ ('\n' : Char) ∉ b.data ∧ extractOkList cs = true := by
  rw [extractOk]
  simp [Bool.and_eq_true, and_assoc]

theorem get_branch_name_of_extractOk (t : RTree) (h : extractOk t = true) :
    get_branch_name t = t.name := by
  rcases t with ⟨l, b, cs⟩
  rw [extractOk_node_iff] at h
  rw [RTree.name]
  exact get_branch_name_node l b cs h.1 h.2.1

theorem childBranchNames_of_extractOk (t : RTree) (h : extractOk t = true) :
    childBranchNames t = childNames t := by
  rcases t with ⟨l, b, cs⟩
  rw [extractOk_node_iff] at h
  simp only [childBranchNames, childNames, RTree.children]
  apply List.map_congr_left
  intro c hc
  exact get_branch_name_of_extractOk c ((extractOkList_iff cs).mp h.2.2 c hc)

theorem extractOk_nodeAt : ∀ (p : List Nat) (t n : RTree),
    extractOk t = true → nodeAt t p = some n → extractOk n = true := by
  intro p
  induction p with
  | nil =>
    intro t n ht h
    rw [nodeAt] at h
    exact (Option.some.inj h) ▸ ht
  | cons j p ih =>
    intro t n ht h
    rcases t with ⟨l, b, cs⟩
    rw [nodeAt] at h
    rcases hc : (RTree.node l b cs).children.get? j with _ | c
    · rw [hc] at h
      exact absurd h (by simp)
    · rw [hc] at h
      apply ih c n ?_ h
      rw [extractOk_node_iff] at ht
      simp only [RTree.children] at hc
      exact (extractOkList_iff cs).mp ht.2.2 c (List.get?_mem hc)

theorem appendChildAt_extractOk (branch link : String)
    (hlink : (']' : Char) ∉ link.data) (hbr : ('\n' : Char) ∉ branch.data) :
    ∀ (p : List Nat) (t : RTree), extractOk t = true →
      extractOk (appendChildAt branch link t p) = true := by
  intro p
  induction p with
  | nil =>
    intro t ht
    rcases t with ⟨l, b, cs⟩
    rw [appendChildAt, extractOk_node_iff]
    rw [extractOk_node_iff] at ht
    refine ⟨ht.1, ht.2.1, ?_⟩
    rw [extractOkList_iff]
    intro c hc
    rcases List.mem_append.mp hc with h | h
    · exact (extractOkList_iff cs).mp ht.2.2 c h
    · simp at h
      subst h
      rw [extractOk_node_iff]
      exact ⟨hlink, hbr, rfl⟩
  | cons j p ih =>
    intro t ht
    rcases t with ⟨l, b, cs⟩
    rw [appendChildAt, extractOk_node_iff]
    rw [extractOk_node_iff] at ht
    refine ⟨ht.1, ht.2.1, ?_⟩
    rw [extractOkList_iff]
    intro c hc
    rcases mem_modifyNth _ j cs c hc with h | ⟨y, hy1, hy2⟩
    · exact (extractOkList_iff cs).mp ht.2.2 c h
    · subst hy2
      exact ih y ((extractOkList_iff cs).mp ht.2.2 y (List.get?_mem hy1))

theorem build_branches_allNodup (t : RTree) (branch link : String) (depth : Nat)
    (hn : allNodup t = true) (hex : extractOk t = true) :
    allNodup (build_branches t branch link depth) = true := by
  rw [build_branches]
  rcases h : bbLoop branch depth t.size 0 [([], t)] with _ | p
  · exact hn
  · have hinv : ∀ x ∈ ([([], t)] : List (List Nat × RTree)), nodeAt t x.1 = some x.2 := by
      intro x hx
      simp only [List.mem_cons, List.not_mem_nil, or_false] at hx
      subst hx
      rfl
    obtain ⟨n, hat, hmem⟩ := bbLoop_some_spec branch depth t t.size 0 [([], t)] p h hinv
    have hmem' : branch ∉ childNames n := by
      rw [← childBranchNames_of_extractOk n (extractOk_nodeAt p t n hex hat)]
      exact hmem
    exact appendChildAt_allNodup branch link p t n hat hmem' hn

theorem build_branches_extractOk (t : RTree) (branch link : String) (depth : Nat)
    (hex : extractOk t = true) (hlink : (']' : Char) ∉ link.data)
    (hbr : ('\n' : Char) ∉ branch.data) :
    extractOk (build_branches t branch link depth) = true := by
  rw [build_branches]
  rcases h : bbLoop branch depth t.size 0 [([], t)] with _ | p
  · exact hex
  · exact appendChildAt_extractOk branch link hlink hbr p t hex


/-! ### Fuel adequacy for `bbLoop`

Each iteration of the Python loop pops a node of size `s` and pushes forests
of total size `s - 1`, so the stack's total node count falls by at least one
per iteration; hence any fuel at least `wsSize ws` gives the same (fuel-free)
result, and the initial fuel `RTree.size tree` used by `build_branches` can
never be exhausted. -/

theorem RTree.size_pos (t : RTree) : 1 ≤ t.size := by
  rcases t with ⟨l, n, cs⟩
  rw [RTree.size]
  omega

theorem wsSize_append (a b : List (List Nat × RTree)) :
    wsSize (a ++ b) = wsSize a + wsSize b := by
  induction a with
  | nil => simp [wsSize]
  | cons x a ih =>
    rcases x with ⟨p, t⟩
    rw [List.cons_append, wsSize, wsSize, ih]
    omega

theorem wsSize_childStack (p : List Nat) (cs : List RTree) :
    ∀ j, wsSize (childStack p j cs) = sizeList cs := by
  induction cs with
  | nil => intro j; simp [childStack, wsSize, sizeList]
  | cons c cs ih =>
    intro j
    rw [childStack, wsSize_append, ih, sizeList, wsSize, wsSize]
    omega

theorem bbLoop_fuel_irrelevant (branch : String) (depth : Nat) :
    ∀ (fuel₁ : Nat), ∀ (fuel₂ i : Nat) (ws : List (List Nat × RTree)),
      wsSize ws ≤ fuel₁ → wsSize ws ≤ fuel₂ →
      bbLoop branch depth fuel₁ i ws = bbLoop branch depth fuel₂ i ws := by
  intro fuel₁
  induction fuel₁ with
  | zero =>
    intro fuel₂ i ws h1 h2
    rcases ws with _ | ⟨⟨p, t⟩, rest⟩
    · cases fuel₂ <;> rfl
    · have := RTree.size_pos t
      rw [wsSize] at h1
      omega
  | succ fuel ih =>
    intro fuel₂ i ws h1 h2
    rcases ws with _ | ⟨⟨p, t⟩, rest⟩
    · cases fuel₂ <;> rfl
    · have hpos := RTree.size_pos t
      rw [wsSize] at h1 h2
      rcases fuel₂ with _ | fuel₂
      · omega
      · rw [bbLoop, bbLoop]
        have hsz : sizeList t.children = t.size - 1 := by
          rcases t with ⟨l, n, cs⟩
          rw [RTree.size, RTree.children]
          omega
        split
        · rfl
        · split
          · rfl
          · split
            · apply ih
              · rw [wsSize_append, wsSize_childStack]
                omega
              · rw [wsSize_append, wsSize_childStack]
                omega
            · apply ih
              · omega
              · omega

/-! ### Character-level lemmas for `str.title` (claim C6) -/

theorem char_eq_of_toNat_eq {a b : Char} (h : a.toNat = b.toNat) : a = b :=
  Char.eq_of_val_eq (UInt32.ext h)

theorem char_toNat_ofNat (n : Nat) (h : n < 0xd800) : (Char.ofNat n).toNat = n := by
  have hv : Nat.isValidChar n := Or.inl h
  simp only [Char.ofNat, hv, dif_pos, Char.ofNatAux, Char.toNat, UInt32.toNat]
  rfl

theorem pyUpper_toNat_of_lower {c : Char} (h : 97 ≤ c.toNat ∧ c.toNat ≤ 122) :
    (pyUpper c).toNat = c.toNat - 32 := by
  rw [pyUpper, if_pos h, char_toNat_ofNat _ (by omega)]

theorem pyUpper_of_not_lower {c : Char} (h : ¬(97 ≤ c.toNat ∧ c.toNat ≤ 122)) :
    pyUpper c = c := by
  rw [pyUpper, if_neg h]

theorem pyLower_toNat_of_upper {c : Char} (h : 65 ≤ c.toNat ∧ c.toNat ≤ 90) :
    (pyLower c).toNat = c.toNat + 32 := by
  rw [pyLower, if_pos h, char_toNat_ofNat _ (by omega)]

theorem pyLower_of_not_upper {c : Char} (h : ¬(65 ≤ c.toNat ∧ c.toNat ≤ 90)) :
    pyLower c = c := by
  rw [pyLower, if_neg h]

theorem pyCased_iff {c : Char} :
    pyCased c = true ↔ (97 ≤ c.toNat ∧ c.toNat ≤ 122) ∨ (65 ≤ c.toNat ∧ c.toNat ≤ 90) := by
  simp [pyCased]

theorem pyCased_pyUpper (c : Char) : pyCased (pyUpper c) = pyCased c := by
  by_cases h : 97 ≤ c.toNat ∧ c.toNat ≤ 122
  · have h2 := pyUpper_toNat_of_lower h
    have ha : pyCased (pyUpper c) = true := pyCased_iff.mpr (Or.inr (by omega))
    have hb : pyCased c = true := pyCased_iff.mpr (Or.inl h)
    rw [ha, hb]
  · rw [pyUpper_of_not_lower h]

theorem pyCased_pyLower (c : Char) : pyCased (pyLower c) = pyCased c := by
  by_cases h : 65 ≤ c.toNat ∧ c.toNat ≤ 90
  · have h2 := pyLower_toNat_of_upper h
    have ha : pyCased (pyLower c) = true := pyCased_iff.mpr (Or.inl (by omega))
    have hb : pyCased c = true := pyCased_iff.mpr (Or.inr h)
    rw [ha, hb]
  · rw [pyLower_of_not_upper h]

theorem pyUpper_eq_uncased_iff {c d : Char} (hd : pyCased d = false) :
    pyUpper c = d ↔ c = d := by
  constructor
  · intro h
    by_cases hc : 97 ≤ c.toNat ∧ c.toNat ≤ 122
    · exfalso
      have h2 := pyUpper_toNat_of_lower hc
      rw [h] at h2
      have : pyCased d = true := by
        rw [pyCased_iff]
        omega
      rw [this] at hd
      exact Bool.true_eq_false.mp hd
    · rwa [pyUpper_of_not_lower hc] at h
  · intro h
    subst h
    apply pyUpper_of_not_lower
    intro hc
    have : pyCased c = true := pyCased_iff.mpr (Or.inl hc)
    rw [this] at hd
    exact Bool.true_eq_false.mp hd

theorem pyLower_eq_uncased_iff {c d : Char} (hd : pyCased d = false) :
    pyLower c = d ↔ c = d := by
  constructor
  · intro h
    by_cases hc : 65 ≤ c.toNat ∧ c.toNat ≤ 90
    · exfalso
      have h2 := pyLower_toNat_of_upper hc
      rw [h] at h2
      have : pyCased d = true := by
        rw [pyCased_iff]
        omega
      rw [this] at hd
      exact Bool.true_eq_false.mp hd
    · rwa [pyLower_of_not_upper hc] at h
  · intro h
    subst h
    apply pyLower_of_not_upper
    intro hc
    have : pyCased c = true := pyCased_iff.mpr (Or.inr hc)
    rw [this] at hd
    exact Bool.true_eq_false.mp hd

theorem pyUpper_idem (c : Char) : pyUpper (pyUpper c) = pyUpper c := by
  by_cases h : 97 ≤ c.toNat ∧ c.toNat ≤ 122
  · apply pyUpper_of_not_lower
    rw [pyUpper_toNat_of_lower h]
    omega
  · rw [pyUpper_of_not_lower h, pyUpper_of_not_lower h]

theorem pyLower_idem (c : Char) : pyLower (pyLower c) = pyLower c := by
  by_cases h : 65 ≤ c.toNat ∧ c.toNat ≤ 90
  · apply pyLower_of_not_upper
    rw [pyLower_toNat_of_upper h]
    omega
  · rw [pyLower_of_not_upper h, pyLower_of_not_upper h]

/-! ### `titleAux` commutation lemmas (claim C6) -/

theorem titleChar_eq_uncased_iff {c d : Char} (hd : pyCased d = false) (b : Bool) :
    (if b then pyLower c else pyUpper c) = d ↔ c = d := by
  cases b
  · simpa using pyUpper_eq_uncased_iff hd
  · simpa using pyLower_eq_uncased_iff hd

theorem titleChar_of_uncased {c : Char} (hc : pyCased c = false) (b : Bool) :
    (if b then pyLower c else pyUpper c) = c := by
  cases b
  · simp only [if_neg Bool.false_ne_true, Bool.false_eq_true, if_false]
    apply pyUpper_of_not_lower
    intro h
    rw [pyCased_iff.mpr (Or.inl h)] at hc
    exact Bool.true_eq_false.mp hc
  · simp only [if_pos rfl]
    apply pyLower_of_not_upper
    intro h
    rw [pyCased_iff.mpr (Or.inr h)] at hc
    exact Bool.true_eq_false.mp hc

theorem pyCased_titleChar (c : Char) (b : Bool) :
    pyCased (if b then pyLower c else pyUpper c) = pyCased c := by
  cases b
  · simpa using pyCased_pyUpper c
  · simpa using pyCased_pyLower c

theorem mem_titleAux {d : Char} (hd : pyCased d = false) :
    ∀ (b : Bool) (l : List Char), d ∈ titleAux b l ↔ d ∈ l := by
  intro b l
  induction l generalizing b with
  | nil => simp [titleAux]
  | cons c cs ih =>
    rw [titleAux]
    simp only [List.mem_cons]
    rw [ih]
    constructor
    · rintro (h | h)
      · exact Or.inl (((titleChar_eq_uncased_iff hd b).mp h.symm).symm)
      · exact Or.inr h
    · rintro (h | h)
      · exact Or.inl (((titleChar_eq_uncased_iff hd b).mpr h.symm).symm)
      · exact Or.inr h

theorem subst_titleChar (a : Char) (ha : pyCased a = false) (c : Char) (b : Bool) :
    subst a ' ' (if b then pyLower c else pyUpper c)
      = (if b then pyLower (subst a ' ' c) else pyUpper (subst a ' ' c)) := by
  by_cases hca : c = a
  · subst hca
    rw [titleChar_of_uncased ha b]
    unfold subst
    rw [if_pos rfl]
    exact (titleChar_of_uncased (by decide) b).symm
  · have h1 : (if b then pyLower c else pyUpper c) ≠ a := by
      intro h
      exact hca ((titleChar_eq_uncased_iff ha b).mp h)
    unfold subst
    rw [if_neg h1, if_neg hca]

theorem map_subst_titleAux (a : Char) (ha : pyCased a = false) :
    ∀ (b : Bool) (l : List Char),
      (titleAux b l).map (subst a ' ') = titleAux b (l.map (subst a ' ')) := by
  intro b l
  induction l generalizing b with
  | nil => simp [titleAux]
  | cons c cs ih =>
    rw [titleAux, List.map_cons, List.map_cons, titleAux]
    rw [subst_titleChar a ha c b, ih (pyCased c)]
    have hcase : pyCased (subst a ' ' c) = pyCased c := by
      by_cases hca : c = a
      · subst hca
        unfold subst
        rw [if_pos rfl, ha]
        decide
      · unfold subst
        rw [if_neg hca]
    rw [hcase]

theorem titleAux_idem : ∀ (b : Bool) (l : List Char), titleAux b (titleAux b l) = titleAux b l := by
  intro b l
  induction l generalizing b with
  | nil => simp [titleAux]
  | cons c cs ih =>
    rw [titleAux, titleAux]
    rw [pyCased_titleChar c b, ih (pyCased c)]
    congr 1
    cases b
    · simpa using pyUpper_idem c
    · simpa using pyLower_idem c

theorem titleAux_cons (b : Bool) (c : Char) (cs : List Char) :
    titleAux b (c :: cs) = (if b then pyLower c else pyUpper c) :: titleAux (pyCased c) cs := rfl

theorem takeWhile_titleAux :
    ∀ (b : Bool) (l : List Char),
      (titleAux b l).takeWhile (fun c => c ≠ '.')
        = titleAux b (l.takeWhile (fun c => c ≠ '.')) := by
  intro b l
  induction l generalizing b with
  | nil => simp [titleAux]
  | cons c cs ih =>
    rw [titleAux_cons]
    by_cases hc : c = '.'
    · subst hc
      rw [titleChar_of_uncased (by decide) b]
      rw [List.takeWhile_cons_of_neg (by simp), List.takeWhile_cons_of_neg (by simp)]
      simp [titleAux]
    · have h1 : (if b then pyLower c else pyUpper c) ≠ '.' :=
        fun h => hc ((titleChar_eq_uncased_iff (by decide) b).mp h)
      rw [List.takeWhile_cons_of_pos (by simpa using h1),
        List.takeWhile_cons_of_pos (by simpa using hc), titleAux_cons, ih (pyCased c)]

theorem splitOnChar_headD (sep : Char) (l : List Char) :
    (splitOnChar sep l).headD [] = l.takeWhile (fun c => c ≠ sep) := by
  induction l with
  | nil => simp [splitOnChar]
  | cons c cs ih =>
    rcases h : splitOnChar sep cs with _ | ⟨w, ws⟩
    · exact absurd h (splitOnChar_ne_nil sep cs)
    · rw [splitOnChar_cons' sep c cs w ws h, List.takeWhile_cons]
      by_cases hc : c = sep
      · simp [hc]
      · rw [h] at ih
        simp only [List.headD_cons] at ih
        simp [hc, ih]

theorem joinWith_cons_head (sep c : Char) (w : List Char) (ws : List (List Char)) :
    joinWith sep ((c :: w) :: ws) = c :: joinWith sep (w :: ws) := by
  cases ws <;> rfl

theorem join_split_subst (a : Char) (l : List Char) :
    joinWith ' ' (splitOnChar a l) = l.map (subst a ' ') := by
  induction l with
  | nil => simp [splitOnChar, joinWith]
  | cons c cs ih =>
    rcases h : splitOnChar a cs with _ | ⟨w, ws⟩
    · exact absurd h (splitOnChar_ne_nil a cs)
    · rw [splitOnChar_cons' a c cs w ws h, List.map_cons]
      rw [h] at ih
      by_cases hc : c = a
      · rw [if_pos hc]
        have hj : joinWith ' ' ([] :: w :: ws) = ' ' :: joinWith ' ' (w :: ws) := rfl
        rw [hj, ih]
        unfold subst
        rw [if_pos hc]
      · rw [if_neg hc, joinWith_cons_head, ih]
        unfold subst
        rw [if_neg hc]

theorem map_subst_self {a : Char} (b : Char) {l : List Char} (h : a ∉ l) :
    l.map (subst a b) = l := by
  induction l with
  | nil => rfl
  | cons c cs ih =>
    rw [List.map_cons, ih (fun hm => h (List.mem_cons_of_mem _ hm))]
    unfold subst
    rw [if_neg (fun hc => h (by simp [← hc]))]

theorem mem_pyTitle {d : Char} (hd : pyCased d = false) (l : List Char) :
    d ∈ pyTitle l ↔ d ∈ l := mem_titleAux hd false l

theorem map_subst_pyTitle (a : Char) (ha : pyCased a = false) (l : List Char) :
    (pyTitle l).map (subst a ' ') = pyTitle (l.map (subst a ' ')) :=
  map_subst_titleAux a ha false l

theorem pyTitle_idem (l : List Char) : pyTitle (pyTitle l) = pyTitle l := titleAux_idem false l

theorem takeWhile_pyTitle (l : List Char) :
    (pyTitle l).takeWhile (fun c => c ≠ '.') = pyTitle (l.takeWhile (fun c => c ≠ '.')) :=
  takeWhile_titleAux false l

/-- Modelled from the spec's words for C6: "replacing underscores and hyphens
with spaces, stripping the extension (everything from the first `.` onward),
and title-casing each word". -/
def spec_format_section (s : String) : String :=
  String.mk (pyTitle (((s.data.map (subst '_' ' ')).map (subst '-' ' ')).takeWhile
    (fun c => c ≠ '.')))

theorem format_section_core_spec (l : List Char) :
    format_section_core l
      = pyTitle (((l.map (subst '_' ' ')).map (subst '-' ' ')).takeWhile (fun c => c ≠ '.')) := by
  by_cases h0 : '_' ∉ l ∧ '.' ∉ l ∧ '-' ∉ l
  · obtain ⟨h1, h2, h3⟩ := h0
    rw [format_section_core, if_pos ⟨h1, h2, h3⟩, map_subst_self ' ' h1, map_subst_self ' ' h3,
      List.takeWhile_eq_self_iff.mpr (fun c hc => by
        simp only [decide_eq_true_eq]
        intro he
        exact h2 (he ▸ hc))]
  · rw [format_section_core, if_neg h0]
    simp only
    have hf1 : (if '_' ∈ l then pyTitle (joinWith ' ' (splitOnChar '_' l)) else pyTitle l)
        = pyTitle (l.map (subst '_' ' ')) := by
      by_cases h : '_' ∈ l
      · rw [if_pos h, join_split_subst]
      · rw [if_neg h, map_subst_self ' ' h]
    rw [hf1]
    have hf2 : (if '-' ∈ pyTitle (l.map (subst '_' ' ')) then
          pyTitle (joinWith ' ' (splitOnChar '-' (pyTitle (l.map (subst '_' ' ')))))
        else pyTitle (l.map (subst '_' ' ')))
        = pyTitle ((l.map (subst '_' ' ')).map (subst '-' ' ')) := by
      by_cases h : '-' ∈ l.map (subst '_' ' ')
      · rw [if_pos ((mem_pyTitle (by decide) _).mpr h), join_split_subst,
          map_subst_pyTitle '-' (by decide), pyTitle_idem]
      · rw [if_neg (fun hm => h ((mem_pyTitle (by decide) _).mp hm)),
          map_subst_self ' ' h]
    rw [hf2]
    by_cases h : '.' ∈ (l.map (subst '_' ' ')).map (subst '-' ' ')
    · rw [if_pos ((mem_pyTitle (by decide) _).mpr h), splitOnChar_headD, takeWhile_pyTitle]
    · rw [if_neg (fun hm => h ((mem_pyTitle (by decide) _).mp hm)),
        List.takeWhile_eq_self_iff.mpr (fun c hc => by
          simp only [decide_eq_true_eq]
          intro he
          exact h (he ▸ hc))]

/-- C6 (confirmed): `format_section` produces the display label by replacing
underscores and hyphens with spaces, stripping everything from the first `.`
onward, and title-casing (CPython `str.title` over ASCII); in particular a
segment containing none of `_`, `-`, `.` is returned title-cased unchanged
otherwise. -/
theorem C6_format_section_matches_spec (s : String) :
    format_section s = spec_format_section s :=
  congrArg String.mk (format_section_core_spec s.data)

/-! ### Duplicate-sibling analysis of `build_tree` (claim C2)

The dedup test of `build_branches` compares `get_branch_name` extractions
of the rendered labels, not the stored branch texts.  For links free of `]`
and of newlines the extraction returns exactly the stored branch text, and
`build_tree` maintains `allNodup`; a link containing `]` derails the
extraction and duplicate siblings arise (`C2_counterexample`). -/

theorem mem_replaceAux_subset (pat rep : List Char) :
    ∀ (fuel : Nat) (l : List Char) (c : Char),
      c ∈ replaceAux pat rep fuel l → c ∈ l ∨ c ∈ rep := by
  intro fuel
  induction fuel with
  | zero =>
    intro l c hc
    rcases l with _ | ⟨x, xs⟩
    · simp [replaceAux] at hc
    · exact Or.inl (by simpa [replaceAux] using hc)
  | succ fuel ih =>
    intro l c hc
    rcases l with _ | ⟨x, xs⟩
    · simp [replaceAux] at hc
    · rw [replaceAux] at hc
      split at hc
      · rcases List.mem_append.mp hc with h | h
        · exact Or.inr h
        · rcases ih _ c h with h2 | h2
          · exact Or.inl (List.drop_subset _ _ h2)
          · exact Or.inr h2
      · rcases List.mem_cons.mp hc with h | h
        · exact Or.inl (by simp [h])
        · rcases ih xs c h with h2 | h2
          · exact Or.inl (List.mem_cons_of_mem _ h2)
          · exact Or.inr h2

theorem mem_splitOnChar (sep : Char) :
    ∀ (l w : List Char), w ∈ splitOnChar sep l → ∀ c ∈ w, c ∈ l := by
  intro l
  induction l with
  | nil =>
    intro w hw c hc
    simp [splitOnChar] at hw
    subst hw
    simp at hc
  | cons d ds ih =>
    intro w hw c hc
    rcases h : splitOnChar sep ds with _ | ⟨w0, ws⟩
    · exact absurd h (splitOnChar_ne_nil sep ds)
    · rw [splitOnChar_cons' sep d ds w0 ws h] at hw
      by_cases hd : d = sep
      · rw [if_pos hd] at hw
        rcases List.mem_cons.mp hw with h1 | h1
        · subst h1
          simp at hc
        · refine List.mem_cons_of_mem _ (ih w ?_ c hc)
          rw [h]
          exact h1
      · rw [if_neg hd] at hw
        rcases List.mem_cons.mp hw with h1 | h1
        · subst h1
          rcases List.mem_cons.mp hc with h2 | h2
          · rw [h2]
            exact List.mem_cons_self d ds
          · refine List.mem_cons_of_mem _ (ih w0 ?_ c h2)
            rw [h]
            exact List.mem_cons_self w0 ws
        · refine List.mem_cons_of_mem _ (ih w ?_ c hc)
          rw [h]
          exact List.mem_cons_of_mem _ h1

theorem mem_split_link (link item : String) (hm : item ∈ split_link link) :
    ∀ c ∈ item.data, c ∈ link.data ∨ c ∈ docsRoot := by
  intro c hc
  have hm' : item ∈ (splitOnChar '/' (replaceAux docsHost docsRoot link.length
      link.data)).map String.mk := by
    simp only [split_link] at hm
    split at hm
    · exact List.dropLast_subset _ hm
    · exact hm
  obtain ⟨w, hw, he⟩ := List.mem_map.mp hm'
  subst he
  exact mem_replaceAux_subset docsHost docsRoot link.length link.data c
    (mem_splitOnChar '/' _ w hw c hc)

theorem subst_ne_nl (a : Char) (c : Char) (h : subst a ' ' c = '\n') : c = '\n' := by
  unfold subst at h
  split at h
  · exact absurd h (by decide)
  · exact h

theorem format_section_no_newline (s : String) (h : ('\n' : Char) ∉ s.data) :
    ('\n' : Char) ∉ (format_section s).data := by
  intro hm
  have hm' : ('\n' : Char) ∈ format_section_core s.data := hm
  rw [format_section_core_spec] at hm'
  have hm2 := (mem_pyTitle (by decide) _).mp hm'
  have hm3 := (List.takeWhile_sublist _).subset hm2
  obtain ⟨c, hc, hce⟩ := List.mem_map.mp hm3
  obtain ⟨d, hd, hde⟩ := List.mem_map.mp hc
  have hc' : c = '\n' := subst_ne_nl '-' c hce
  have hd' : d = '\n' := subst_ne_nl '_' d (by rw [hde, hc'])
  exact h (hd' ▸ hd)

theorem buildTreeItems_inv (link : String) (hlink : (']' : Char) ∉ link.data) :
    ∀ (items : List String) (i : Nat) (tree : Option RTree),
      (∀ it ∈ items, ('\n' : Char) ∉ (format_section it).data) →
      (∀ t, tree = some t → allNodup t = true ∧ extractOk t = true) →
      ∀ t', buildTreeItems link tree i items = some t' →
        allNodup t' = true ∧ extractOk t' = true := by
  intro items
  induction items with
  | nil =>
    intro i tree hitems htree t' h
    exact htree t' h
  | cons item rest ih =>
    intro i tree hitems htree t' h
    simp only [buildTreeItems] at h
    refine ih (i + 1) _ (fun it hit => hitems it (List.mem_cons_of_mem _ hit)) ?_ t' h
    intro t ht
    split at ht
    · rename_i t0
      obtain ⟨hn0, he0⟩ := htree t0 rfl
      obtain rfl : build_branches t0 (format_section item) link i = t := Option.some.inj ht
      refine ⟨build_branches_allNodup t0 (format_section item) link i hn0 he0, ?_⟩
      exact build_branches_extractOk t0 (format_section item) link i he0 hlink
        (hitems item (List.mem_cons_self item rest))
    · split at ht
      · obtain rfl : RTree.node link (format_section item) [] = t := Option.some.inj ht
        refine ⟨by simp [allNodup, allNodupList, distinctNames], ?_⟩
        rw [extractOk_node_iff]
        exact ⟨hlink, hitems item (List.mem_cons_self item rest), rfl⟩
      · exact absurd ht (by simp)

theorem build_tree_foldl_inv :
    ∀ (links : List String) (tree : Option RTree),
      (∀ l ∈ links, (']' : Char) ∉ l.data ∧ ('\n' : Char) ∉ l.data) →
      (∀ t, tree = some t → allNodup t = true ∧ extractOk t = true) →
      ∀ t', links.foldl (fun tree link => buildTreeItems link tree 0 (split_link link)) tree
          = some t' →
        allNodup t' = true ∧ extractOk t' = true := by
  intro links
  induction links with
  | nil =>
    intro tree _ htree t' h
    exact htree t' (by simpa using h)
  | cons link rest ih =>
    intro tree hcl htree t' h
    rw [List.foldl_cons] at h
    refine ih _ (fun l hl => hcl l (List.mem_cons_of_mem _ hl)) ?_ t' h
    intro t ht
    refine buildTreeItems_inv link (hcl link (List.mem_cons_self link rest)).1
      (split_link link) 0 tree ?_ htree t ht
    intro it hit
    apply format_section_no_newline
    intro hnl
    rcases mem_split_link link it hit '\n' hnl with hA | hB
    · exact (hcl link (List.mem_cons_self link rest)).2 hA
    · exact absurd hB (by decide)

/-- C2 (corrected): the duplicate test of `build_branches` compares the
names `get_branch_name` re-extracts from the rendered child labels, so
`build_tree` keeps the displayed sibling labels of every node pairwise
distinct whenever the input links contain neither `]` nor a newline — then
the extraction recovers exactly each stored branch text.  The mechanism
holds unconditionally: every `build_branches` call either returns the tree
unchanged or appends the new branch as last child of a node none of whose
children's *extracted* names equal it.  (For links containing `]` the
extraction starts inside the link, the comparison is derailed and two
siblings can end up with the same displayed label: `C2_counterexample`.) -/
theorem C2_build_tree_no_duplicate_siblings :
    (∀ (links : List String) (t : RTree),
        (∀ l ∈ links, (']' : Char) ∉ l.data ∧ ('\n' : Char) ∉ l.data) →
        build_tree links = some t → allNodup t = true)
    ∧ ∀ (t : RTree) (branch link : String) (depth : Nat),
        build_branches t branch link depth = t
        ∨ ∃ p n, nodeAt t p = some n ∧ branch ∉ childBranchNames n
            ∧ build_branches t branch link depth = appendChildAt branch link t p := by
  constructor
  · intro links t hcl h
    rw [build_tree] at h
    exact (build_tree_foldl_inv links none hcl
      (fun t ht => absurd ht (by simp)) t h).1
  · intro t branch link depth
    rw [build_branches]
    rcases h : bbLoop branch depth t.size 0 [([], t)] with _ | p
    · exact Or.inl rfl
    · have hinv : ∀ x ∈ ([([], t)] : List (List Nat × RTree)), nodeAt t x.1 = some x.2 := by
        intro x hx
        simp only [List.mem_cons, List.not_mem_nil, or_false] at hx
        subst hx
        rfl
      obtain ⟨n, hat, hmem⟩ := bbLoop_some_spec branch depth t t.size 0 [([], t)] p h hinv
      exact Or.inr ⟨p, n, hat, hmem, rfl⟩

/-- Refutation of the unconditional reading of C2 on the real extraction
semantics: the first link contains `]` (an IPv6-style host), every
`get_branch_name` call starts its match inside the link, the dedup
comparisons are derailed, and the root receives two children whose labels
both display the empty branch text — `allNodup` is false for the tree
`build_tree` returns. -/
theorem C2_counterexample :
    build_tree ["http://[::1]/a", "http://x/a"]
      = some (RTree.node "http://[::1]/a" "Http:"
          [RTree.node "http://[::1]/a" ""
             [RTree.node "http://[::1]/a" "[::1]" [RTree.node "http://[::1]/a" "A" []]],
           RTree.node "http://x/a" ""
             [RTree.node "http://x/a" "X" [RTree.node "http://x/a" "A" []]]])
    ∧ allNodup (RTree.node "http://[::1]/a" "Http:"
          [RTree.node "http://[::1]/a" ""
             [RTree.node "http://[::1]/a" "[::1]" [RTree.node "http://[::1]/a" "A" []]],
           RTree.node "http://x/a" ""
             [RTree.node "http://x/a" "X" [RTree.node "http://x/a" "A" []]]]) = false :=
  ⟨rfl, rfl⟩

/-- Witness for C2 at a concrete clean input: `["a/b", "a/c"]` builds
`A — [B, C]` and the invariant holds. -/
theorem C2_witness :
    allNodup (RTree.node "a/b" "A" [RTree.node "a/b" "B" [], RTree.node "a/c" "C" []])
      = true :=
  C2_build_tree_no_duplicate_siblings.1 ["a/b", "a/c"]
    (RTree.node "a/b" "A" [RTree.node "a/b" "B" [], RTree.node "a/c" "C" []])
    (by decide) rfl

/-! ### `meilisearch_cli/_helpers.py` : effect-trace embedding

Console printing, HTTP calls, `sys.exit` and raising are embedded as an
explicit list of effects plus a termination value.  `sys.exit()` with no
argument gives process exit status 0 in Python (`sysExit none` below),
`sys.exit(n)` gives status `n`, an uncaught exception gives a non-zero
status. -/

/-- Border colors from `meilisearch_cli/_config.py`. -/
def PANEL_BORDER_COLOR : String := "sky_blue2"

/-- Secondary border color from `meilisearch_cli/_config.py`. -/
def SECONDARY_BORDER_COLOR : String := "dodger_blue1"

/-- The `error` field of a task record (`result["error"]`), when present and
non-empty (Python's `result.get("error")` truthiness). -/
structure TaskError where
  code : String
  message : String
deriving DecidableEq

/-- A task / update record as far as the CLI reads it: its `uid`, its
`status`, and its optional `error` object. -/
structure TaskRecord where
  uid : Nat
  status : String
  error : Option TaskError := none
deriving DecidableEq

/-- The value returned by `request_method()` inside `process_request`: a
single task record or a list of them (`add_documents_in_batches`). -/
inductive Update where
  | single (t : TaskRecord)
  | many (ts : List TaskRecord)
deriving DecidableEq

/-- Data handed to `print_panel_or_raw`. -/
inductive Payload where
  | task (t : TaskRecord)
  | tasks (ts : List TaskRecord)
  | retrieved (s : String)
deriving DecidableEq

/-- Observable side effects of the embedded helpers. -/
inductive Eff where
  | printError (msg : String)
  | panelOrRaw (raw : Bool) (p : Payload) (title : String)
  | getTask (uid : Nat)
  | waitForTask (uid : Nat) (timeoutInMs : Nat)
  | request
  | retrieve
  | openFile (path : String)
  | addDocumentsRaw (contentType : String)
deriving DecidableEq

/-- How the embedded code fragment ends. -/
inductive Term where
  | fallthrough
  | sysExit (code : Option Nat)
  | raised (msg : String)
deriving DecidableEq

/-- The process exit status each `Term` produces in Python: plain return and
`sys.exit()` / `sys.exit(0)` give 0; `sys.exit(n)` gives `n`; an uncaught
exception gives a non-zero status (1 for `SystemExit`-less tracebacks). -/
def pythonExitStatus : Term → Nat
  | .fallthrough => 0
  | .sysExit none => 0
  | .sysExit (some n) => n
  | .raised _ => 1

/-- The environment a `process_request` run reads: the result of
`request_method()`, the terminal records `index.wait_for_task` returns per
uid, the records `get_task` returns per uid, and the (serialised) result of
`retrieve_method()`. -/
structure Env where
  update : Update
  waitForTask : Nat → TaskRecord
  getTask : Nat → TaskRecord
  retrieved : String

/-- `check_index_status` of `_helpers.py` (lines 19-29): re-fetch the task,
and on a recognized error code print a message and `sys.exit(0)`; on any
other (truthy) error raise `MeiliSearchError`; otherwise fall through. -/
def check_index_status (getTaskF : Nat → TaskRecord) (index_id : String) (task_id : Nat) :
    List Eff × Option Term :=
  match (getTaskF task_id).error with
  | some e =>
    if e.code = "index_already_exists" then
      ([.getTask task_id,
        .printError ("Index [error_highlight]" ++ index_id ++ "[/] already exists")],
       some (.sysExit (some 0)))
    else if e.code = "index_not_found" then
      ([.getTask task_id,
        .printError ("Index [error_highlight]" ++ index_id ++ "[/] not found")],
       some (.sysExit (some 0)))
    else
      ([.getTask task_id], some (.raised e.message))
  | none => ([.getTask task_id], none)

/-- The `for u in update:` loop of `process_request` (lines 134-139): wait
for each task with a 600000 ms timeout and bail out with status 1 on the
first `"failed"` one. -/
def waitLoopMany (env : Env) (raw : Bool) : List TaskRecord → List Eff × Option Term
  | [] => ([], none)
  | u :: us =>
    if (env.waitForTask u.uid).status = "failed" then
      ([.waitForTask u.uid 600000, .panelOrRaw raw (.task (env.waitForTask u.uid)) "Failed"],
       some (.sysExit (some 1)))
    else
      (.waitForTask u.uid 600000 :: (waitLoopMany env raw us).1, (waitLoopMany env raw us).2)

/-- The payload printed by the no-wait branch of `process_request`. -/
def payloadOfUpdate : Update → Payload
  | .single t => .task t
  | .many ts => .tasks ts

/-- `process_request` of `_helpers.py` (lines 117-144).  `requestEff` is the
call made by `request_method()` (line 125); `indexUid` is `index.uid`.  For a
single update it waits (600000 ms timeout), runs `check_index_status` on the
waited record's uid, prints the failure record and exits 1 when the terminal
status is `"failed"`, and otherwise retrieves and prints; for a list it waits
on each in turn (no `check_index_status`); without `--wait` it prints the
update itself. -/
def process_request (requestEff : Eff) (env : Env) (indexUid : String) (wait raw : Bool)
    (title : String) : List Eff × Term :=
  if wait then
    match env.update with
    | .single u =>
      match check_index_status env.getTask indexUid (env.waitForTask u.uid).uid with
      | (ce, some t) => (requestEff :: .waitForTask u.uid 600000 :: ce, t)
      | (ce, none) =>
        if (env.waitForTask u.uid).status = "failed" then
          (requestEff :: .waitForTask u.uid 600000 :: ce
            ++ [.panelOrRaw raw (.task (env.waitForTask u.uid)) "Failed"], .sysExit (some 1))
        else
          (requestEff :: .waitForTask u.uid 600000 :: ce
            ++ [.retrieve, .panelOrRaw raw (.retrieved env.retrieved) title], .fallthrough)
    | .many us =>
      match waitLoopMany env raw us with
      | (es, some t) => (requestEff :: es, t)
      | (es, none) =>
        (requestEff :: es
          ++ [.retrieve, .panelOrRaw raw (.retrieved env.retrieved) title], .fallthrough)
  else
    ([requestEff, .panelOrRaw raw (payloadOfUpdate env.update) title], .fallthrough)

/-- Python truthiness of an optional string CLI value: `None` and `""` are
falsy. -/
def pyTruthyStr : Option String → Bool
  | none => false
  | some s => decide (s ≠ "")

/-- The message printed when both `--url` and `--master-key` are missing
(verbatim from `_helpers.py`, line 35). -/
def bothMissingMsg : String :=
  "Values for [error_highlight]--url[/] and [error_highlight]--master-key[/] have to either be provided or available in the [error_highlight]MEILI_HTTP_ADDR[/] and [error_highlight]MEILI_MASTER_KEY[/] environment variables"

/-- The message printed when only `--url` is missing (verbatim, including the
source's "provied" typo). -/
def urlMissingMsg : String :=
  "A value for [error_highlight]--url[/] has to either be provied or available in the [error_highlight]MEILI_HTTP_ADDR[/] environment variable"

/-- The message printed when only `--master-key` is missing (verbatim). -/
def masterKeyMissingMsg : String :=
  "A value for [error_highlight]--master-key[/] has to either be provied or available in the [error_highlight]MEILI_MASTER_KEY[/] environment variable"

/-- `create_client` of `_helpers.py` (lines 32-52): `none` as second
component means a `Client(url, master_key)` was constructed and returned;
`some t` means the process exited first. -/
def create_client (url master_key : Option String) : List Eff × Option Term :=
  if ¬pyTruthyStr url ∧ ¬pyTruthyStr master_key then
    ([.printError bothMissingMsg], some (.sysExit none))
  else if ¬pyTruthyStr url then
    ([.printError urlMissingMsg], some (.sysExit none))
  else if ¬pyTruthyStr master_key then
    ([.printError masterKeyMissingMsg], some (.sysExit none))
  else
    ([], none)

/-! ### `pathlib` suffix semantics, `validate_file_type_and_set_content_type` -/

/-- The final path component, as `pathlib.PurePosixPath(...).name` computes
it: split on `/` and drop empty and `.` components; the name is the last
remaining component (or empty). -/
def pathName (s : String) : String :=
  String.mk (((splitOnChar '/' s.data).filter (fun c => c ≠ [] ∧ c ≠ ['.'])).getLastD [])

/-- Index of the last `.` of a character list (Python `str.rfind(".")` when
it succeeds). -/
def lastIndexOfDot : List Char → Option Nat
  | [] => none
  | c :: cs =>
    match lastIndexOfDot cs with
    | some i => some (i + 1)
    | none => if c = '.' then some 0 else none

/-- `pathlib.PurePath.suffix`: `name[i:]` for `i = name.rfind('.')` when
`0 < i < len(name) - 1`, else the empty string. -/
def pySuffix (s : String) : String :=
  let nm := (pathName s).data
  match lastIndexOfDot nm with
  | some i => if 0 < i ∧ i < nm.length - 1 then String.mk (nm.drop i) else ""
  | none => ""

/-- `validate_file_type_and_set_content_type` of `_helpers.py`
(lines 154-168): map the path's suffix to a content type, or print an error
and `sys.exit()`. -/
def validate_file_type_and_set_content_type (file_path : String) :
    List Eff × Except Term String :=
  let file_type := pySuffix file_path
  if file_type = ".csv" then ([], .ok "text/csv")
  else if file_type = ".json" then ([], .ok "application/json")
  else if file_type = ".ndjson" then ([], .ok "application/x-ndjson")
  else
    ([.printError ("[error_highlight]" ++ file_type
        ++ "[/] files are not accepted. Only .json, .csv, and .ndjson are accepted")],
     .error (.sysExit none))

/-- `add_from_file` of `meilisearch_cli/documents.py` (lines 57-91) as an
effect sequence: validate the extension first (exiting before anything
else), then open the file, create the client, and run `process_request`
whose `request_method` is `add_documents_raw(documents, primary_key,
content_type)`.  The call site passes `process_request`'s trailing arguments
positionally in a stale order (the console object lands in the `title`
parameter and the string "Add Documents Result" in `raw`, which is truthy),
so the run prints raw JSON; `rawTitle` stands for the stringified console
object. -/
def add_from_file (env : Env) (indexUid : String) (file_path : String)
    (url master_key : Option String) (wait : Bool) (rawTitle : String) : List Eff × Term :=
  match validate_file_type_and_set_content_type file_path with
  | (ve, .error t) => (ve, t)
  | (ve, .ok content_type) =>
    match create_client url master_key with
    | (ce, some t) => (ve ++ [.openFile file_path] ++ ce, t)
    | (ce, none) =>
      let pr := process_request (.addDocumentsRaw content_type) env indexUid wait true rawTitle
      (ve ++ [.openFile file_path] ++ ce ++ pr.1, pr.2)

/-! ### `create_panel` of `_helpers.py` (lines 55-93)

The `data` argument is a JSON-like value: a string, a list (of dicts in
every call site, but the embedding allows nesting as the code does), a dict
(embedded as an association list preserving insertion order, values
stringified as the f-string interpolation does), or `None`. -/

/-- The `data` argument of `create_panel`, following the source's type
annotation `dict[str, Any] | list[dict[str, Any]] | str | None`: dicts are
association lists preserving insertion order, with values stringified the way
the f-string interpolation does. -/
inductive PData where
  | str (s : String)
  | list (xs : List (List (String × String)))
  | dict (kvs : List (String × String))

mutual
/-- The renderable `info` computed by `create_panel`: either plain text or a
`rich.console.group` of nested panels. -/
inductive PanelInfo where
  | text (s : String)
  | group (ps : List Panel)

/-- A `rich.panel.Panel` (or `Panel.fit`): its renderable, title, whether
`Panel.fit` was used, and its border style. -/
inductive Panel where
  | mk (info : PanelInfo) (title : String) (fit : Bool) (borderColor : String)
end

/-- The `info` of a panel. -/
def Panel.info : Panel → PanelInfo
  | .mk i _ _ _ => i

/-- The title of a panel. -/
def Panel.title : Panel → String
  | .mk _ t _ _ => t

/-- The `for key, value in data.items():` accumulation of `create_panel`
(lines 84-88): the first line is bare, later lines are appended after a
newline. -/
def dictLines : String → List (String × String) → String
  | info, [] => info
  | info, (k, v) :: kvs =>
    dictLines (if info = "" then "[green]" ++ k ++ "[/]: " ++ v
               else info ++ "\n" ++ ("[green]" ++ k ++ "[/]: " ++ v)) kvs

/-- The panel `create_panel` builds for a dict argument (the branch at lines
79-93); the recursive call the list branch makes on each element lands here,
since the elements are dicts. -/
def dictPanel (kvs : List (String × String)) (title : String) (fit : Bool) (bc : String) :
    Panel :=
  .mk (.text (dictLines "" kvs)) title fit bc

/-- `create_panel` of `_helpers.py`: strings pass through; a non-empty list
becomes a group of nested unfitted panels (one `create_panel(d, title="",
fit=False, panel_border_color=SECONDARY_BORDER_COLOR)` per element `d`, each
a dict, hence `dictPanel`); `[]` renders as `"[]"`; `{}` renders as `"{}"`
(note `dictLines "" [] = ""` is overridden by the explicit `data == {}`
check producing `"{}"`); a non-empty dict renders as `[green]key[/]: value`
lines; `None` falls through every branch and leaves `info` as the initial
`""`. -/
def create_panel : Option PData → String → Bool → String → Panel
  | some (.str s), title, fit, bc => .mk (.text s) title fit bc
  | some (.list []), title, fit, bc => .mk (.text "[]") title fit bc
  | some (.list (x :: xs)), title, fit, bc =>
    .mk (.group ((x :: xs).map (fun d => dictPanel d "" false SECONDARY_BORDER_COLOR)))
      title fit bc
  | some (.dict []), title, fit, bc => .mk (.text "{}") title fit bc
  | some (.dict (kv :: kvs)), title, fit, bc => dictPanel (kv :: kvs) title fit bc
  | none, title, fit, bc => .mk (.text "") title fit bc

/-! ### The `search` command of `main.py` (lines 789-871) -/

/-- A value stored in the `search_params` dict. -/
inductive SPValue where
  | int (n : Int)
  | strs (l : List String)
  | bool (b : Bool)
deriving DecidableEq

/-- Python truthiness of an `SPValue` (`0`, `[]` and `False` are falsy). -/
def SPValue.truthy : SPValue → Bool
  | .int n => decide (n ≠ 0)
  | .strs l => decide (l ≠ [])
  | .bool b => b

/-- `set_search_param` of `_helpers.py` (lines 147-151): add the parameter to
the mapping only when it is truthy. -/
def set_search_param (search_params : List (String × SPValue)) (param : SPValue)
    (param_name : String) : List (String × SPValue) :=
  if param.truthy then search_params ++ [(param_name, param)] else search_params

/-- Python truthiness of an optional integer option (`None` and `0` falsy). -/
def intTruthy : Option Int → Bool
  | none => false
  | some n => decide (n ≠ 0)

/-- Python truthiness of an optional list option (`None` and `[]` falsy). -/
def listTruthy : Option (List String) → Bool
  | none => false
  | some l => decide (l ≠ [])

/-- The `search_params` dict assembled by the `search` command of `main.py`
(lines 828-858): one `if option: search_params[...] = option` per option, in
source order.  (The `attributes_to_hightlight` spelling is the source's.) -/
def searchParams (offset limit : Option Int)
    (filter facets_distribution attributes_to_retrieve attributes_to_crop : Option (List String))
    (crop_length : Option Int) (attributes_to_hightlight : Option (List String))
    (matchesArg : Bool) (sort : Option (List String)) : List (String × SPValue) :=
  let ps : List (String × SPValue) := []
  let ps := if intTruthy offset then ps ++ [("offset", .int (offset.getD 0))] else ps
  let ps := if intTruthy limit then ps ++ [("limit", .int (limit.getD 0))] else ps
  let ps := if listTruthy filter then ps ++ [("filter", .strs (filter.getD []))] else ps
  let ps := if listTruthy facets_distribution then
    ps ++ [("facetsDistribution", .strs (facets_distribution.getD []))] else ps
  let ps := if listTruthy attributes_to_retrieve then
    ps ++ [("attributesToRetrieve", .strs (attributes_to_retrieve.getD []))] else ps
  let ps := if listTruthy attributes_to_crop then
    ps ++ [("attributesToCrop", .strs (attributes_to_crop.getD []))] else ps
  let ps := if intTruthy crop_length then
    ps ++ [("cropLength", .int (crop_length.getD 0))] else ps
  let ps := if listTruthy attributes_to_hightlight then
    ps ++ [("attributesToHighlight", .strs (attributes_to_hightlight.getD []))] else ps
  let ps := if matchesArg then ps ++ [("matches", .bool matchesArg)] else ps
  let ps := if listTruthy sort then ps ++ [("sort", .strs (sort.getD []))] else ps
  ps

/-- How the search is finally issued (lines 860-864): with the parameter
mapping when it is non-empty, with the query string alone otherwise. -/
inductive SearchCall where
  | queryOnly (q : String)
  | withParams (q : String) (ps : List (String × SPValue))
deriving DecidableEq

/-- The `client.index(index).search(...)` invocation the `search` command
makes. -/
def searchInvocation (query : String) (offset limit : Option Int)
    (filter facets_distribution attributes_to_retrieve attributes_to_crop : Option (List String))
    (crop_length : Option Int) (attributes_to_hightlight : Option (List String))
    (matchesArg : Bool) (sort : Option (List String)) : SearchCall :=
  let ps := searchParams offset limit filter facets_distribution attributes_to_retrieve
    attributes_to_crop crop_length attributes_to_hightlight matchesArg sort
  if ps ≠ [] then .withParams query ps else .queryOnly query

/-! ### Claim C5 : `create_client` validation messages -/

/-- C5 (confirmed): with both `--url` and `--master-key` falsy the printed
message names both flags and both environment variables and the process
exits; with exactly one falsy the message names only the missing one (flag
and environment variable); with both present no message is printed and a
client is returned. -/
theorem C5_create_client_messages (url master_key : Option String) :
    (pyTruthyStr url = false ∧ pyTruthyStr master_key = false →
      create_client url master_key = ([.printError bothMissingMsg], some (.sysExit none))
        ∧ strContains bothMissingMsg "--url" = true
        ∧ strContains bothMissingMsg "--master-key" = true
        ∧ strContains bothMissingMsg "MEILI_HTTP_ADDR" = true
        ∧ strContains bothMissingMsg "MEILI_MASTER_KEY" = true)
    ∧ (pyTruthyStr url = false ∧ pyTruthyStr master_key = true →
      create_client url master_key = ([.printError urlMissingMsg], some (.sysExit none))
        ∧ strContains urlMissingMsg "--url" = true
        ∧ strContains urlMissingMsg "MEILI_HTTP_ADDR" = true
        ∧ strContains urlMissingMsg "--master-key" = false
        ∧ strContains urlMissingMsg "MEILI_MASTER_KEY" = false)
    ∧ (pyTruthyStr url = true ∧ pyTruthyStr master_key = false →
      create_client url master_key = ([.printError masterKeyMissingMsg], some (.sysExit none))
        ∧ strContains masterKeyMissingMsg "--master-key" = true
        ∧ strContains masterKeyMissingMsg "MEILI_MASTER_KEY" = true
        ∧ strContains masterKeyMissingMsg "--url" = false
        ∧ strContains masterKeyMissingMsg "MEILI_HTTP_ADDR" = false)
    ∧ (pyTruthyStr url = true ∧ pyTruthyStr master_key = true →
      create_client url master_key = ([], none)) := by
  refine ⟨?_, ?_, ?_, ?_⟩
  · rintro ⟨h1, h2⟩
    refine ⟨?_, by decide, by decide, by decide, by decide⟩
    rw [create_client, if_pos ⟨by simp [h1], by simp [h2]⟩]
  · rintro ⟨h1, h2⟩
    refine ⟨?_, by decide, by decide, by decide, by decide⟩
    rw [create_client, if_neg (by simp [h2]), if_pos (by simp [h1])]
  · rintro ⟨h1, h2⟩
    refine ⟨?_, by decide, by decide, by decide, by decide⟩
    rw [create_client, if_neg (by simp [h1]), if_neg (by simp [h1]),
      if_pos (by simp [h2])]
  · rintro ⟨h1, h2⟩
    rw [create_client, if_neg (by simp [h1]), if_neg (by simp [h1]),
      if_neg (by simp [h2])]

/-- C5 witness: the four cases at concrete inputs. -/
theorem C5_witness :
    create_client none none = ([.printError bothMissingMsg], some (.sysExit none))
      ∧ create_client none (some "masterKey")
          = ([.printError urlMissingMsg], some (.sysExit none))
      ∧ create_client (some "http://localhost:7700") none
          = ([.printError masterKeyMissingMsg], some (.sysExit none))
      ∧ create_client (some "http://localhost:7700") (some "masterKey") = ([], none) :=
  ⟨((C5_create_client_messages none none).1 ⟨rfl, rfl⟩).1,
   (((C5_create_client_messages none (some "masterKey")).2.1) ⟨rfl, by decide⟩).1,
   (((C5_create_client_messages (some "http://localhost:7700") none).2.2.1)
     ⟨by decide, rfl⟩).1,
   ((C5_create_client_messages (some "http://localhost:7700") (some "masterKey")).2.2.2)
     ⟨by decide, by decide⟩⟩

/-! ### Claim C8 : every `wait_for_task` call carries the 600000 ms timeout -/

theorem check_index_status_effects (g : Nat → TaskRecord) (i : String) (tid : Nat) :
    ∀ e ∈ (check_index_status g i tid).1,
      (∃ u, e = Eff.getTask u) ∨ (∃ m, e = Eff.printError m) := by
  intro e he
  rw [check_index_status] at he
  split at he
  · split at he
    · simp only [List.mem_cons, List.not_mem_nil, or_false] at he
      rcases he with he | he
      · exact Or.inl ⟨tid, he⟩
      · exact Or.inr ⟨_, he⟩
    · split at he
      · simp only [List.mem_cons, List.not_mem_nil, or_false] at he
        rcases he with he | he
        · exact Or.inl ⟨tid, he⟩
        · exact Or.inr ⟨_, he⟩
      · simp only [List.mem_cons, List.not_mem_nil, or_false] at he
        exact Or.inl ⟨tid, he⟩
  · simp only [List.mem_cons, List.not_mem_nil, or_false] at he
    exact Or.inl ⟨tid, he⟩

theorem waitLoopMany_effects (env : Env) (raw : Bool) (ts : List TaskRecord) :
    ∀ e ∈ (waitLoopMany env raw ts).1,
      (∃ u, e = Eff.waitForTask u 600000)
        ∨ (∃ r, e = Eff.panelOrRaw raw (.task r) "Failed") := by
  induction ts with
  | nil => intro e he; simp [waitLoopMany] at he
  | cons u us ih =>
    intro e he
    rw [waitLoopMany] at he
    split at he
    · simp only [List.mem_cons, List.not_mem_nil, or_false] at he
      rcases he with he | he
      · exact Or.inl ⟨u.uid, he⟩
      · exact Or.inr ⟨_, he⟩
    · simp only [List.mem_cons] at he
      rcases he with he | he
      · exact Or.inl ⟨u.uid, he⟩
      · exact ih e he

theorem process_request_effects (requestEff : Eff) (env : Env) (indexUid : String)
    (wait raw : Bool) (title : String) :
    ∀ e ∈ (process_request requestEff env indexUid wait raw title).1,
      e = requestEff ∨ (∃ u, e = Eff.waitForTask u 600000) ∨ (∃ u, e = Eff.getTask u)
        ∨ (∃ m, e = Eff.printError m) ∨ (∃ r p t, e = Eff.panelOrRaw r p t)
        ∨ e = Eff.retrieve := by
  intro e he
  rw [process_request] at he
  split at he
  · split at he
    · rename_i u hu
      split at he
      · rename_i ce t heq
        simp only [List.mem_cons] at he
        rcases he with he | he | he
        · exact Or.inl he
        · exact Or.inr (Or.inl ⟨u.uid, he⟩)
        · have hce : e ∈ (check_index_status env.getTask indexUid
              (env.waitForTask u.uid).uid).1 := by rw [heq]; exact he
          rcases check_index_status_effects env.getTask indexUid
            (env.waitForTask u.uid).uid e hce with h | h
          · exact Or.inr (Or.inr (Or.inl h))
          · exact Or.inr (Or.inr (Or.inr (Or.inl h)))
      · rename_i ce heq
        have hsub : ∀ x ∈ ce, x ∈ (check_index_status env.getTask indexUid
            (env.waitForTask u.uid).uid).1 := by
          intro x hx
          rw [heq]
          exact hx
        split at he <;>
          simp only [List.mem_cons, List.mem_append, List.not_mem_nil, or_false] at he
        · rcases he with (he | he | he) | he
          · exact Or.inl he
          · exact Or.inr (Or.inl ⟨u.uid, he⟩)
          · rcases check_index_status_effects env.getTask indexUid
              (env.waitForTask u.uid).uid e (hsub e he) with h | h
            · exact Or.inr (Or.inr (Or.inl h))
            · exact Or.inr (Or.inr (Or.inr (Or.inl h)))
          · exact Or.inr (Or.inr (Or.inr (Or.inr (Or.inl ⟨_, _, _, he⟩))))
        · rcases he with (he | he | he) | he | he
          · exact Or.inl he
          · exact Or.inr (Or.inl ⟨u.uid, he⟩)
          · rcases check_index_status_effects env.getTask indexUid
              (env.waitForTask u.uid).uid e (hsub e he) with h | h
            · exact Or.inr (Or.inr (Or.inl h))
            · exact Or.inr (Or.inr (Or.inr (Or.inl h)))
          · exact Or.inr (Or.inr (Or.inr (Or.inr (Or.inr he))))
          · exact Or.inr (Or.inr (Or.inr (Or.inr (Or.inl ⟨_, _, _, he⟩))))
    · rename_i us hus
      split at he
      · rename_i es t heq
        simp only [List.mem_cons] at he
        rcases he with he | he
        · exact Or.inl he
        · have hes : e ∈ (waitLoopMany env raw us).1 := by rw [heq]; exact he
          rcases waitLoopMany_effects env raw us e hes with h | ⟨r, h⟩
          · exact Or.inr (Or.inl h)
          · exact Or.inr (Or.inr (Or.inr (Or.inr (Or.inl ⟨_, _, _, h⟩))))
      · rename_i es heq
        simp only [List.mem_cons, List.mem_append, List.not_mem_nil, or_false] at he
        rcases he with (he | he) | he | he
        · exact Or.inl he
        · have hes : e ∈ (waitLoopMany env raw us).1 := by rw [heq]; exact he
          rcases waitLoopMany_effects env raw us e hes with h | ⟨r, h⟩
          · exact Or.inr (Or.inl h)
          · exact Or.inr (Or.inr (Or.inr (Or.inr (Or.inl ⟨_, _, _, h⟩))))
        · exact Or.inr (Or.inr (Or.inr (Or.inr (Or.inr he))))
        · exact Or.inr (Or.inr (Or.inr (Or.inr (Or.inl ⟨_, _, _, he⟩))))
  · simp only [List.mem_cons, List.not_mem_nil, or_false] at he
    rcases he with he | he
    · exact Or.inl he
    · exact Or.inr (Or.inr (Or.inr (Or.inr (Or.inl ⟨_, _, _, he⟩))))

/-- C8 (confirmed): every `index.wait_for_task` call `process_request`
issues carries the explicit `timeout_in_ms=600000` (600-second) bound, never
an unbounded wait.  The hypothesis only rules out instantiating the opaque
`request_method` effect with a wait-call label. -/
theorem C8_wait_for_task_timeout (requestEff : Eff) (env : Env) (indexUid : String)
    (wait raw : Bool) (title : String)
    (hreq : ∀ u t, requestEff ≠ Eff.waitForTask u t) (uid tm : Nat)
    (h : Eff.waitForTask uid tm ∈ (process_request requestEff env indexUid wait raw title).1) :
    tm = 600000 := by
  rcases process_request_effects requestEff env indexUid wait raw title _ h with
    h1 | ⟨u, h1⟩ | ⟨u, h1⟩ | ⟨m, h1⟩ | ⟨r, p, t, h1⟩ | h1
  · exact absurd h1.symm (hreq uid tm)
  · injection h1 with _ h2
  · exact absurd h1 (by simp)
  · exact absurd h1 (by simp)
  · exact absurd h1 (by simp)
  · exact absurd h1 (by simp)

/-- C8 witness: a concrete waited run contains its wait call, and the
theorem applies to it. -/
theorem C8_witness : (600000 : Nat) = 600000 :=
  C8_wait_for_task_timeout .request
    ⟨.single ⟨1, "enqueued", none⟩, fun _ => ⟨1, "succeeded", none⟩,
     fun _ => ⟨1, "succeeded", none⟩, "R"⟩
    "movies" true false "T" (fun u t h => by cases h) 1 600000 (by decide)

/-! ### Claim C3 : behavior of `process_request` on failed tasks -/

theorem waitLoopMany_all_ok (env : Env) (raw : Bool) : ∀ (ts : List TaskRecord),
    (∀ u ∈ ts, (env.waitForTask u.uid).status ≠ "failed") →
    waitLoopMany env raw ts = (ts.map (fun u => Eff.waitForTask u.uid 600000), none) := by
  intro ts
  induction ts with
  | nil => intro _; rfl
  | cons u us ih =>
    intro hall
    rw [waitLoopMany, if_neg (hall u (by simp)), ih (fun v hv => hall v (by simp [hv]))]
    rfl

theorem waitLoopMany_exists_failed (env : Env) (raw : Bool) : ∀ (ts : List TaskRecord),
    (∃ u ∈ ts, (env.waitForTask u.uid).status = "failed") →
    (waitLoopMany env raw ts).2 = some (.sysExit (some 1))
    ∧ ∃ r, r.status = "failed"
        ∧ Eff.panelOrRaw raw (.task r) "Failed" ∈ (waitLoopMany env raw ts).1 := by
  intro ts
  induction ts with
  | nil => rintro ⟨u, hu, _⟩; simp at hu
  | cons u us ih =>
    rintro ⟨v, hv, hfail⟩
    rw [waitLoopMany]
    by_cases hu : (env.waitForTask u.uid).status = "failed"
    · rw [if_pos hu]
      exact ⟨rfl, env.waitForTask u.uid, hu, by simp⟩
    · rw [if_neg hu]
      have hex : ∃ w ∈ us, (env.waitForTask w.uid).status = "failed" := by
        rcases List.mem_cons.mp hv with h | h
        · exact absurd (h ▸ hfail) hu
        · exact ⟨v, h, hfail⟩
      obtain ⟨h2, r, hr1, hr2⟩ := ih hex
      exact ⟨h2, r, hr1, by simp [hr2]⟩

/-- C3 (corrected): under `--wait`, for a single update whose re-fetched task
record carries no error object, a `"failed"` terminal status prints the
failure record and exits with status 1 without printing the retrieve result,
and a non-`"failed"` status prints the retrieved result; for a batched (list)
update this dichotomy holds unconditionally.  (The original claim fails when
the re-fetched record carries a recognized index error: `check_index_status`
then exits with status 0 before the failure record is printed, see
`C3_counterexample`.) -/
theorem C3_process_request_failed_semantics (env : Env) (indexUid title : String)
    (raw : Bool) :
    (∀ u, env.update = .single u →
      (env.getTask (env.waitForTask u.uid).uid).error = none →
      (((env.waitForTask u.uid).status = "failed" →
          (process_request .request env indexUid true raw title).2 = .sysExit (some 1)
          ∧ pythonExitStatus (process_request .request env indexUid true raw title).2 = 1
          ∧ Eff.panelOrRaw raw (.task (env.waitForTask u.uid)) "Failed"
              ∈ (process_request .request env indexUid true raw title).1
          ∧ Eff.panelOrRaw raw (.retrieved env.retrieved) title
              ∉ (process_request .request env indexUid true raw title).1)
        ∧ ((env.waitForTask u.uid).status ≠ "failed" →
          (process_request .request env indexUid true raw title).2 = .fallthrough
          ∧ Eff.panelOrRaw raw (.retrieved env.retrieved) title
              ∈ (process_request .request env indexUid true raw title).1)))
    ∧ (∀ ts, env.update = .many ts →
        (((∀ u ∈ ts, (env.waitForTask u.uid).status ≠ "failed") →
          (process_request .request env indexUid true raw title).2 = .fallthrough
          ∧ Eff.panelOrRaw raw (.retrieved env.retrieved) title
              ∈ (process_request .request env indexUid true raw title).1)
        ∧ ((∃ u ∈ ts, (env.waitForTask u.uid).status = "failed") →
          (process_request .request env indexUid true raw title).2 = .sysExit (some 1)
          ∧ pythonExitStatus (process_request .request env indexUid true raw title).2 = 1
          ∧ (∃ r, r.status = "failed" ∧ Eff.panelOrRaw raw (.task r) "Failed"
              ∈ (process_request .request env indexUid true raw title).1)
          ∧ Eff.panelOrRaw raw (.retrieved env.retrieved) title
              ∉ (process_request .request env indexUid true raw title).1))) := by
  constructor
  · intro u hu herr
    have hcheck : check_index_status env.getTask indexUid (env.waitForTask u.uid).uid
        = ([.getTask (env.waitForTask u.uid).uid], none) := by
      simp [check_index_status, herr]
    constructor
    · intro hst
      have hval : process_request .request env indexUid true raw title
          = ([.request, .waitForTask u.uid 600000, .getTask (env.waitForTask u.uid).uid,
              .panelOrRaw raw (.task (env.waitForTask u.uid)) "Failed"], .sysExit (some 1)) := by
        simp [process_request, hu, hcheck, hst]
      rw [hval]
      refine ⟨rfl, rfl, by simp, by simp⟩
    · intro hst
      have hval : process_request .request env indexUid true raw title
          = ([.request, .waitForTask u.uid 600000, .getTask (env.waitForTask u.uid).uid,
              .retrieve, .panelOrRaw raw (.retrieved env.retrieved) title], .fallthrough) := by
        simp [process_request, hu, hcheck, hst]
      rw [hval]
      exact ⟨rfl, by simp⟩
  · intro ts hus
    constructor
    · intro hall
      have hloop := waitLoopMany_all_ok env raw ts hall
      constructor
      · simp [process_request, hus, hloop]
      · simp [process_request, hus, hloop]
    · intro hex
      obtain ⟨h2, r, hr1, hr2⟩ := waitLoopMany_exists_failed env raw ts hex
      rcases hl : waitLoopMany env raw ts with ⟨es, lt⟩
      rw [hl] at h2 hr2
      simp only at h2 hr2
      subst h2
      refine ⟨by simp [process_request, hus, hl],
        by simp [process_request, hus, hl, pythonExitStatus],
        ⟨r, hr1, by simp [process_request, hus, hl, hr2]⟩, ?_⟩
      intro hmem
      have hval : (process_request .request env indexUid true raw title).1
          = .request :: es := by
        simp [process_request, hus, hl]
      rw [hval] at hmem
      rcases List.mem_cons.mp hmem with h | h
      · exact absurd h (by simp)
      · have hes : Eff.panelOrRaw raw (.retrieved env.retrieved) title
            ∈ (waitLoopMany env raw ts).1 := by rw [hl]; exact h
        rcases waitLoopMany_effects env raw ts _ hes with ⟨u', h'⟩ | ⟨r', h'⟩
        · exact absurd h' (by simp)
        · simp at h'

/-- The counterexample environment for C3: the waited task is `"failed"`,
and re-fetching it yields a recognized `index_already_exists` error. -/
def c3CexEnv : Env where
  update := .single ⟨1, "enqueued", none⟩
  waitForTask := fun _ => ⟨1, "failed", none⟩
  getTask := fun _ => ⟨1, "failed", some ⟨"index_already_exists", "Index movies already exists"⟩⟩
  retrieved := "R"

/-- C3 counterexample: with `--wait`, a failed task whose re-fetched record
carries the recognized `index_already_exists` error makes `process_request`
exit with status 0 (via `check_index_status`'s `sys.exit(0)`), and the
failure record is never printed — refuting "prints the failure record and
the process exits with a non-zero status". -/
theorem C3_counterexample :
    (process_request .request c3CexEnv "movies" true false "T").2 = .sysExit (some 0)
    ∧ pythonExitStatus (process_request .request c3CexEnv "movies" true false "T").2 = 0
    ∧ ((process_request .request c3CexEnv "movies" true false "T").1.all fun e =>
        match e with
        | .panelOrRaw _ (.task _) _ => false
        | _ => true) = true
    ∧ (c3CexEnv.waitForTask 1).status = "failed" := by
  refine ⟨rfl, rfl, rfl, rfl⟩

/-- C3 witness: a concrete single failed task with no error object: the exit
status is 1 and the failure record is printed. -/
theorem C3_witness :
    (process_request .request
      ⟨.single ⟨1, "enqueued", none⟩, fun _ => ⟨1, "failed", none⟩,
       fun _ => ⟨1, "failed", none⟩, "R"⟩ "movies" true false "T").2 = .sysExit (some 1)
    ∧ pythonExitStatus (process_request .request
        ⟨.single ⟨1, "enqueued", none⟩, fun _ => ⟨1, "failed", none⟩,
         fun _ => ⟨1, "failed", none⟩, "R"⟩ "movies" true false "T").2 = 1 := by
  have h := ((C3_process_request_failed_semantics
    ⟨.single ⟨1, "enqueued", none⟩, fun _ => ⟨1, "failed", none⟩,
     fun _ => ⟨1, "failed", none⟩, "R"⟩ "movies" "T" false).1
    ⟨1, "enqueued", none⟩ rfl rfl).1 rfl
  exact ⟨h.1, h.2.1⟩

/-! ### Claim C9 : exit statuses of validation and recognized-error paths -/

theorem check_index_status_term (g : Nat → TaskRecord) (i : String) (tid : Nat) (t : Term)
    (h : (check_index_status g i tid).2 = some t) :
    t = .sysExit (some 0) ∨ ∃ m, t = .raised m := by
  rw [check_index_status] at h
  split at h
  · split at h
    · simp at h
      exact Or.inl h.symm
    · split at h
      · simp at h
        exact Or.inl h.symm
      · simp at h
        exact Or.inr ⟨_, h.symm⟩
  · simp at h

theorem waitLoopMany_term (env : Env) (raw : Bool) : ∀ (ts : List TaskRecord) (t : Term),
    (waitLoopMany env raw ts).2 = some t → t = .sysExit (some 1) := by
  intro ts
  induction ts with
  | nil => intro t h; simp [waitLoopMany] at h
  | cons u us ih =>
    intro t h
    rw [waitLoopMany] at h
    split at h
    · simp at h
      exact h.symm
    · exact ih t h

/-- C9 (confirmed): every validation or recognized-error exit path ends with
process exit status 0 — missing url/master-key and disallowed file extensions
exit via a bare `sys.exit()`, recognized task errors via `sys.exit(0)` — and
the only non-zero `sys.exit` code `process_request` can produce is the
status-1 exit of a failed task under `--wait`. -/
theorem C9_exit_statuses :
    (∀ (url master_key : Option String) (t : Term),
      (create_client url master_key).2 = some t →
        t = .sysExit none ∧ pythonExitStatus t = 0)
    ∧ (∀ (p : String) (t : Term),
      (validate_file_type_and_set_content_type p).2 = .error t →
        t = .sysExit none ∧ pythonExitStatus t = 0)
    ∧ (∀ (g : Nat → TaskRecord) (i : String) (tid : Nat) (e : TaskError),
      (g tid).error = some e →
      (e.code = "index_already_exists" ∨ e.code = "index_not_found") →
      (check_index_status g i tid).2 = some (.sysExit (some 0))
        ∧ pythonExitStatus (.sysExit (some 0)) = 0)
    ∧ (∀ (requestEff : Eff) (env : Env) (indexUid : String) (wait raw : Bool)
        (title : String) (c : Nat),
      (process_request requestEff env indexUid wait raw title).2 = .sysExit (some c) →
        c = 0 ∨ (c = 1 ∧ wait = true)) := by
  refine ⟨?_, ?_, ?_, ?_⟩
  · intro url master_key t h
    rw [create_client] at h
    split at h
    · simp at h
      exact ⟨h.symm, by rw [← h]; rfl⟩
    · split at h
      · simp at h
        exact ⟨h.symm, by rw [← h]; rfl⟩
      · split at h
        · simp at h
          exact ⟨h.symm, by rw [← h]; rfl⟩
        · simp at h
  · intro p t h
    rw [validate_file_type_and_set_content_type] at h
    split at h
    · simp at h
    · split at h
      · simp at h
      · split at h
        · simp at h
        · simp at h
          exact ⟨h.symm, by rw [← h]; rfl⟩
  · intro g i tid e herr hcode
    refine ⟨?_, rfl⟩
    rcases hcode with h | h
    · simp [check_index_status, herr, h]
    · by_cases h1 : e.code = "index_already_exists" <;> simp [check_index_status, herr, h1, h]
  · intro requestEff env indexUid wait raw title c h
    rw [process_request] at h
    split at h
    · rename_i hwait
      split at h
      · rename_i u hu
        split at h
        · rename_i ce t heq
          have ht : t = Term.sysExit (some c) := h
          rcases check_index_status_term env.getTask indexUid (env.waitForTask u.uid).uid t
            (by rw [heq]) with h1 | ⟨m, h1⟩
          · rw [h1] at ht
            simp at ht
            exact Or.inl ht.symm
          · rw [h1] at ht
            simp at ht
        · split at h
          · have ht : Term.sysExit (some 1) = Term.sysExit (some c) := h
            simp at ht
            exact Or.inr ⟨ht.symm, hwait⟩
          · exact absurd h (by simp)
      · rename_i us hus
        split at h
        · rename_i es t heq
          have ht : t = Term.sysExit (some c) := h
          have h1 := waitLoopMany_term env raw us t (by rw [heq])
          rw [h1] at ht
          simp at ht
          exact Or.inr ⟨ht.symm, hwait⟩
        · exact absurd h (by simp)
    · exact absurd h (by simp)

/-- C9 witness: the four exit paths at concrete inputs. -/
theorem C9_witness :
    (Term.sysExit none = .sysExit none ∧ pythonExitStatus (.sysExit none) = 0)
    ∧ (Term.sysExit none = .sysExit none ∧ pythonExitStatus (.sysExit none) = 0)
    ∧ ((check_index_status (fun _ => ⟨1, "failed", some ⟨"index_not_found", "m"⟩⟩)
        "movies" 1).2 = some (.sysExit (some 0)) ∧ pythonExitStatus (.sysExit (some 0)) = 0)
    ∧ ((1 : Nat) = 0 ∨ ((1 : Nat) = 1 ∧ true = true)) :=
  ⟨C9_exit_statuses.1 none none (.sysExit none) rfl,
   C9_exit_statuses.2.1 "movies.txt" (.sysExit none) rfl,
   C9_exit_statuses.2.2.1 (fun _ => ⟨1, "failed", some ⟨"index_not_found", "m"⟩⟩)
     "movies" 1 ⟨"index_not_found", "m"⟩ rfl (Or.inr rfl),
   C9_exit_statuses.2.2.2 .request
     ⟨.single ⟨1, "enqueued", none⟩, fun _ => ⟨1, "failed", none⟩,
      fun _ => ⟨1, "failed", none⟩, "R"⟩ "movies" true false "T" 1 rfl⟩

/-! ### Claim C4 : content type from extension, rejection before any I/O -/

/-- C4 (confirmed): the content type is a function of the extension alone
(`.json`, `.csv`, `.ndjson` map to `application/json`, `text/csv`,
`application/x-ndjson`), and any other extension makes `add_from_file` print
an error and exit (bare `sys.exit()`) producing no file-open and no
document-upload effect. -/
theorem C4_content_type_from_extension (env : Env) (indexUid : String) (file_path : String)
    (url master_key : Option String) (wait : Bool) (rawTitle : String) :
    (pySuffix file_path = ".json" →
      validate_file_type_and_set_content_type file_path = ([], .ok "application/json"))
    ∧ (pySuffix file_path = ".csv" →
      validate_file_type_and_set_content_type file_path = ([], .ok "text/csv"))
    ∧ (pySuffix file_path = ".ndjson" →
      validate_file_type_and_set_content_type file_path = ([], .ok "application/x-ndjson"))
    ∧ (∀ q, pySuffix file_path = pySuffix q →
      validate_file_type_and_set_content_type file_path
        = validate_file_type_and_set_content_type q)
    ∧ (pySuffix file_path ≠ ".json" → pySuffix file_path ≠ ".csv" →
       pySuffix file_path ≠ ".ndjson" →
      add_from_file env indexUid file_path url master_key wait rawTitle
        = ([.printError ("[error_highlight]" ++ pySuffix file_path
            ++ "[/] files are not accepted. Only .json, .csv, and .ndjson are accepted")],
           .sysExit none)
      ∧ Eff.openFile file_path
          ∉ (add_from_file env indexUid file_path url master_key wait rawTitle).1
      ∧ (∀ ct, Eff.addDocumentsRaw ct
          ∉ (add_from_file env indexUid file_path url master_key wait rawTitle).1)) := by
  refine ⟨?_, ?_, ?_, ?_, ?_⟩
  · intro h
    simp [validate_file_type_and_set_content_type, h]
  · intro h
    simp [validate_file_type_and_set_content_type, h]
  · intro h
    simp [validate_file_type_and_set_content_type, h]
  · intro q hq
    simp only [validate_file_type_and_set_content_type, hq]
  · intro h1 h2 h3
    have hv : validate_file_type_and_set_content_type file_path
        = ([.printError ("[error_highlight]" ++ pySuffix file_path
            ++ "[/] files are not accepted. Only .json, .csv, and .ndjson are accepted")],
           .error (.sysExit none)) := by
      simp [validate_file_type_and_set_content_type, h1, h2, h3]
    have ha : add_from_file env indexUid file_path url master_key wait rawTitle
        = ([.printError ("[error_highlight]" ++ pySuffix file_path
            ++ "[/] files are not accepted. Only .json, .csv, and .ndjson are accepted")],
           .sysExit none) := by
      rw [add_from_file.eq_def, hv]
    refine ⟨ha, ?_, ?_⟩
    · rw [ha]
      simp
    · intro ct
      rw [ha]
      simp

/-- C4 witness: the three accepted extensions at concrete paths, and a
rejected `.txt` path producing only the error print. -/
theorem C4_witness :
    validate_file_type_and_set_content_type "movies.json" = ([], .ok "application/json")
    ∧ validate_file_type_and_set_content_type "movies.csv" = ([], .ok "text/csv")
    ∧ validate_file_type_and_set_content_type "movies.ndjson" = ([], .ok "application/x-ndjson")
    ∧ add_from_file ⟨.single ⟨1, "enqueued", none⟩, fun _ => ⟨1, "succeeded", none⟩,
        fun _ => ⟨1, "succeeded", none⟩, "R"⟩ "movies" "movies.txt" (some "u") (some "k")
        false "T"
        = ([.printError ("[error_highlight]" ++ pySuffix "movies.txt"
            ++ "[/] files are not accepted. Only .json, .csv, and .ndjson are accepted")],
           .sysExit none) :=
  ⟨(C4_content_type_from_extension ⟨.single ⟨1, "enqueued", none⟩,
      fun _ => ⟨1, "succeeded", none⟩, fun _ => ⟨1, "succeeded", none⟩, "R"⟩ "movies"
      "movies.json" (some "u") (some "k") false "T").1 (by decide),
   (C4_content_type_from_extension ⟨.single ⟨1, "enqueued", none⟩,
      fun _ => ⟨1, "succeeded", none⟩, fun _ => ⟨1, "succeeded", none⟩, "R"⟩ "movies"
      "movies.csv" (some "u") (some "k") false "T").2.1 (by decide),
   (C4_content_type_from_extension ⟨.single ⟨1, "enqueued", none⟩,
      fun _ => ⟨1, "succeeded", none⟩, fun _ => ⟨1, "succeeded", none⟩, "R"⟩ "movies"
      "movies.ndjson" (some "u") (some "k") false "T").2.2.1 (by decide),
   ((C4_content_type_from_extension ⟨.single ⟨1, "enqueued", none⟩,
      fun _ => ⟨1, "succeeded", none⟩, fun _ => ⟨1, "succeeded", none⟩, "R"⟩ "movies"
      "movies.txt" (some "u") (some "k") false "T").2.2.2.2 (by decide) (by decide)
      (by decide)).1⟩

/-! ### Claim C7 : panel bodies for empty / `None` / dict data -/

/-- Modelled from the spec's words for C7: one `key: value` line per entry,
lines joined by newlines. -/
def joinLines : List String → String
  | [] => ""
  | [x] => x
  | x :: xs => x ++ "\n" ++ joinLines xs

/-- The newline-prefixed rendering of the non-first dict entries. -/
def linesTail : List (String × String) → String
  | [] => ""
  | kv :: kvs => "\n" ++ ("[green]" ++ kv.1 ++ "[/]: " ++ kv.2) ++ linesTail kvs

theorem append_ne_empty_left {a : String} (b : String) (h : a ≠ "") : a ++ b ≠ "" := by
  intro hc
  apply h
  have h2 := congrArg String.data hc
  rw [String.data_append] at h2
  simp only [List.append_eq_nil] at h2
  cases a with
  | mk d => simpa using (string_mk_eq_empty_iff d).mpr h2.1

theorem joinLines_cons2 (x y : String) (ys : List String) :
    joinLines (x :: y :: ys) = x ++ "\n" ++ joinLines (y :: ys) := rfl

theorem dictLines_acc : ∀ (kvs : List (String × String)) (info : String), info ≠ "" →
    dictLines info kvs = info ++ linesTail kvs := by
  intro kvs
  induction kvs with
  | nil =>
    intro info h
    rw [dictLines, linesTail]
    exact (String.append_empty info).symm
  | cons kv kvs ih =>
    intro info h
    rcases kv with ⟨k, v⟩
    rw [dictLines, if_neg h, linesTail]
    rw [ih _ (append_ne_empty_left _ (append_ne_empty_left _ h))]
    simp [String.append_assoc]

def joinTail : List String → String
  | [] => ""
  | y :: ys => "\n" ++ y ++ joinTail ys

theorem joinLines_eq_joinTail : ∀ (ls : List String) (x : String),
    joinLines (x :: ls) = x ++ joinTail ls := by
  intro ls
  induction ls with
  | nil =>
    intro x
    rw [joinTail]
    exact (String.append_empty x).symm
  | cons y ys ih =>
    intro x
    rw [joinLines_cons2, joinTail, ih y]
    simp [String.append_assoc]

theorem linesTail_eq_joinTail : ∀ (kvs : List (String × String)),
    linesTail kvs = joinTail (kvs.map (fun p => "[green]" ++ p.1 ++ "[/]: " ++ p.2)) := by
  intro kvs
  induction kvs with
  | nil => rfl
  | cons kv kvs ih => rw [linesTail, List.map_cons, joinTail, ih]

theorem joinLines_map_line (kvs : List (String × String)) (kv : String × String) :
    joinLines ((kv :: kvs).map (fun p => "[green]" ++ p.1 ++ "[/]: " ++ p.2))
      = ("[green]" ++ kv.1 ++ "[/]: " ++ kv.2) ++ linesTail kvs := by
  rw [List.map_cons, joinLines_eq_joinTail, linesTail_eq_joinTail]

/-- C7 (corrected): in human (panel) mode an empty dict renders with body
`"{}"`, an empty list with body `"[]"`, and a non-empty dict with one
`[green]key[/]: value` line per entry in insertion order; a `None` input
renders with an *empty* body (`""`), not the word `"None"` (see
`C7_counterexample`). -/
theorem C7_create_panel_bodies (title : String) (fit : Bool) (bc : String) :
    (create_panel (some (.dict [])) title fit bc).info = .text "{}"
    ∧ (create_panel (some (.list [])) title fit bc).info = .text "[]"
    ∧ (create_panel none title fit bc).info = .text ""
    ∧ (∀ (kv : String × String) (kvs : List (String × String)),
        (create_panel (some (.dict (kv :: kvs))) title fit bc).info
          = .text (joinLines ((kv :: kvs).map
              (fun p => "[green]" ++ p.1 ++ "[/]: " ++ p.2)))) := by
  refine ⟨rfl, rfl, rfl, ?_⟩
  intro kv kvs
  rcases kv with ⟨k, v⟩
  show PanelInfo.text (dictLines "" ((k, v) :: kvs)) = _
  rw [joinLines_map_line, dictLines, if_pos rfl,
    dictLines_acc kvs _ (append_ne_empty_left _ (append_ne_empty_left _
      (append_ne_empty_left _ (by decide))))]

/-- C7 counterexample: `create_panel` on `None` in panel mode yields an empty
body, not the word `"None"` — refuting "a None input renders as the word
None". -/
theorem C7_counterexample :
    (create_panel none "Title" true PANEL_BORDER_COLOR).info = .text ""
    ∧ PanelInfo.text "" ≠ .text "None" :=
  ⟨rfl, by simp⟩

/-! ### Claim C10 : falsy search options are omitted -/

/-- Canonicalize a falsy integer option to absent. -/
def normInt (v : Option Int) : Option Int := if intTruthy v then v else none

/-- Canonicalize a falsy list option to absent. -/
def normList (v : Option (List String)) : Option (List String) :=
  if listTruthy v then v else none

theorem ifAppendSingleton {α : Type} (c : Prop) [Decidable c] (ps : List α) (x : α) :
    (if c then ps ++ [x] else ps) = ps ++ (if c then [x] else []) := by
  split <;> simp

theorem searchParams_eq_segments (offset limit : Option Int)
    (filter facets_distribution attributes_to_retrieve attributes_to_crop :
      Option (List String))
    (crop_length : Option Int) (attributes_to_hightlight : Option (List String))
    (matchesArg : Bool) (sort : Option (List String)) :
    searchParams offset limit filter facets_distribution attributes_to_retrieve
        attributes_to_crop crop_length attributes_to_hightlight matchesArg sort
      = (if intTruthy offset then [("offset", SPValue.int (offset.getD 0))] else [])
        ++ (if intTruthy limit then [("limit", SPValue.int (limit.getD 0))] else [])
        ++ (if listTruthy filter then [("filter", SPValue.strs (filter.getD []))] else [])
        ++ (if listTruthy facets_distribution then
            [("facetsDistribution", SPValue.strs (facets_distribution.getD []))] else [])
        ++ (if listTruthy attributes_to_retrieve then
            [("attributesToRetrieve", SPValue.strs (attributes_to_retrieve.getD []))] else [])
        ++ (if listTruthy attributes_to_crop then
            [("attributesToCrop", SPValue.strs (attributes_to_crop.getD []))] else [])
        ++ (if intTruthy crop_length then
            [("cropLength", SPValue.int (crop_length.getD 0))] else [])
        ++ (if listTruthy attributes_to_hightlight then
            [("attributesToHighlight", SPValue.strs (attributes_to_hightlight.getD []))] else [])
        ++ (if matchesArg then [("matches", SPValue.bool matchesArg)] else [])
        ++ (if listTruthy sort then [("sort", SPValue.strs (sort.getD []))] else []) := by
  simp only [searchParams, ifAppendSingleton]
  simp only [List.append_assoc, List.nil_append]

theorem segInt_norm (n : String) (v : Option Int) :
    (if intTruthy (normInt v) then [(n, SPValue.int ((normInt v).getD 0))] else [])
      = (if intTruthy v then [(n, SPValue.int (v.getD 0))] else []) := by
  by_cases h : intTruthy v = true
  · simp [normInt, h]
  · simp only [Bool.not_eq_true] at h
    have hn : normInt v = none := by rw [normInt, if_neg (by simp [h])]
    rw [hn, h]
    simp [intTruthy]

theorem segList_norm (n : String) (v : Option (List String)) :
    (if listTruthy (normList v) then [(n, SPValue.strs ((normList v).getD []))] else [])
      = (if listTruthy v then [(n, SPValue.strs (v.getD []))] else []) := by
  by_cases h : listTruthy v = true
  · simp [normList, h]
  · simp only [Bool.not_eq_true] at h
    have hn : normList v = none := by rw [normList, if_neg (by simp [h])]
    rw [hn, h]
    simp [listTruthy]

theorem mem_segInt {nm : String} {v : SPValue} (n : String) (o : Option Int)
    (h : (nm, v) ∈ (if intTruthy o then [(n, SPValue.int (o.getD 0))] else [])) :
    v.truthy = true := by
  split at h
  · rename_i hc
    simp at h
    rcases o with _ | x
    · simp [intTruthy] at hc
    · simp [intTruthy] at hc
      rw [h.2]
      simp [SPValue.truthy, hc]
  · simp at h

theorem mem_segList {nm : String} {v : SPValue} (n : String) (o : Option (List String))
    (h : (nm, v) ∈ (if listTruthy o then [(n, SPValue.strs (o.getD []))] else [])) :
    v.truthy = true := by
  split at h
  · rename_i hc
    simp at h
    rcases o with _ | x
    · simp [listTruthy] at hc
    · simp [listTruthy] at hc
      rw [h.2]
      simp [SPValue.truthy, hc]
  · simp at h

theorem mem_segBool {nm : String} {v : SPValue} (n : String) (b : Bool)
    (h : (nm, v) ∈ (if b = true then [(n, SPValue.bool b)] else [])) : v.truthy = true := by
  split at h
  · rename_i hc
    simp at h
    rw [h.2, SPValue.truthy, hc]
  · simp at h

/-- C10 (confirmed): an option whose parsed value is falsy (offset 0, limit
0, crop length 0, `matches` false, empty or absent lists) is omitted from the
search-parameter mapping — assembling with falsy values canonicalized to
absent gives the identical mapping, and every entry actually stored is
truthy; when every option is falsy the search is issued with the query string
alone. -/
theorem C10_search_falsy_options_omitted (query : String) (offset limit : Option Int)
    (filter facets_distribution attributes_to_retrieve attributes_to_crop :
      Option (List String))
    (crop_length : Option Int) (attributes_to_hightlight : Option (List String))
    (matchesArg : Bool) (sort : Option (List String)) :
    searchParams offset limit filter facets_distribution attributes_to_retrieve
        attributes_to_crop crop_length attributes_to_hightlight matchesArg sort
      = searchParams (normInt offset) (normInt limit) (normList filter)
          (normList facets_distribution) (normList attributes_to_retrieve)
          (normList attributes_to_crop) (normInt crop_length)
          (normList attributes_to_hightlight) matchesArg (normList sort)
    ∧ (∀ nm v, (nm, v) ∈ searchParams offset limit filter facets_distribution
          attributes_to_retrieve attributes_to_crop crop_length attributes_to_hightlight
          matchesArg sort → v.truthy = true)
    ∧ (intTruthy offset = false → intTruthy limit = false → listTruthy filter = false →
       listTruthy facets_distribution = false → listTruthy attributes_to_retrieve = false →
       listTruthy attributes_to_crop = false → intTruthy crop_length = false →
       listTruthy attributes_to_hightlight = false → matchesArg = false →
       listTruthy sort = false →
       searchInvocation query offset limit filter facets_distribution attributes_to_retrieve
         attributes_to_crop crop_length attributes_to_hightlight matchesArg sort
         = .queryOnly query) := by
  refine ⟨?_, ?_, ?_⟩
  · simp only [searchParams_eq_segments, segInt_norm, segList_norm]
  · intro nm v h
    rw [searchParams_eq_segments] at h
    simp only [List.mem_append] at h
    rcases h with ((((((((h | h) | h) | h) | h) | h) | h) | h) | h) | h
    · exact mem_segInt _ _ h
    · exact mem_segInt _ _ h
    · exact mem_segList _ _ h
    · exact mem_segList _ _ h
    · exact mem_segList _ _ h
    · exact mem_segList _ _ h
    · exact mem_segInt _ _ h
    · exact mem_segList _ _ h
    · exact mem_segBool _ _ h
    · exact mem_segList _ _ h
  · intro h1 h2 h3 h4 h5 h6 h7 h8 h9 h10
    have hps : searchParams offset limit filter facets_distribution attributes_to_retrieve
        attributes_to_crop crop_length attributes_to_hightlight matchesArg sort = [] := by
      rw [searchParams_eq_segments]
      simp [h1, h2, h3, h4, h5, h6, h7, h8, h9, h10]
    rw [searchInvocation]
    simp [hps]

/-- C10 witness: concrete falsy values (0, `None`, empty lists, `False`)
produce a bare-query search. -/
theorem C10_witness :
    searchInvocation "hello" (some 0) none (some []) none (some []) none (some 0) none
      false (some []) = .queryOnly "hello" :=
  (C10_search_falsy_options_omitted "hello" (some 0) none (some []) none (some []) none
    (some 0) none false (some [])).2.2 rfl rfl rfl rfl rfl rfl rfl rfl rfl rfl

/-- C1 witness: the amended equivalence evaluated at the counterexample
list. -/
theorem C1_witness :
    build_tree [""] = none ↔ ∀ l ∈ ([""] : List String), l = "" :=
  C1_build_tree_error_iff_all_links_empty [""]

/-- C6 witness: a concrete segment with an underscore and an extension. -/
theorem C6_witness :
    format_section "quick_start.html" = spec_format_section "quick_start.html" :=
  C6_format_section_matches_spec "quick_start.html"

/-- C7 witness: the empty-dict, empty-list and `None` bodies at a concrete
title. -/
theorem C7_witness :
    (create_panel (some (.dict [])) "Settings" true PANEL_BORDER_COLOR).info = .text "{}"
    ∧ (create_panel (some (.list [])) "Settings" true PANEL_BORDER_COLOR).info = .text "[]"
    ∧ (create_panel none "Settings" true PANEL_BORDER_COLOR).info = .text "" :=
  ⟨(C7_create_panel_bodies "Settings" true PANEL_BORDER_COLOR).1,
   (C7_create_panel_bodies "Settings" true PANEL_BORDER_COLOR).2.1,
   (C7_create_panel_bodies "Settings" true PANEL_BORDER_COLOR).2.2.1⟩
